import Mathlib

/-!
Verification of the SuperSecretary tool-calling core against its design
spec.  The Python sources embedded here are `app/chat.py`, `app/ai_agent.py`,
`app/config_loader.py` and `app/mcp/mcp_remote.py`.

JSON subset: the sources delegate JSON work to Python's `json` module.  The
embedding models the exact scanner of CPython's `json` for the sub-grammar
without floats (`frac`/`exp` parts and the constants `NaN`/`Infinity` are
rejected rather than parsed as floats) and without string escapes (a
backslash in a string literal is rejected rather than unescaped).  Inputs
outside that sub-grammar fail to decode here where CPython would produce a
float or an escaped string; every theorem below whose hypotheses mention
rendered values or inert prose stays inside the common sub-grammar, where
the embedding and CPython agree position by position.
-/

set_option maxHeartbeats 1600000

namespace SuperSecretary

/-- A decoded JSON value (Python-side: `None`/`bool`/`int`/`str`/`list`/`dict`).
Strings are kept as character lists; objects as key-value lists in Python
dict insertion order. -/
inductive J where
  | null : J
  | bool (b : Bool) : J
  | num (n : Int) : J
  | str (s : List Char) : J
  | arr (elems : List J) : J
  | obj (members : List (List Char × J)) : J

instance : Inhabited J := ⟨J.null⟩

/-- The whitespace set of the `json` module (`[ \t\n\r]`, regex `_w`). -/
def isJsonWs (c : Char) : Bool :=
  c == ' ' || c == '\t' || c == '\n' || c == '\r'

/-- ASCII whitespace of Python's `str.isspace` (the characters the iterator
skip loop in `_iter_json_objects` can meet in this development). -/
def pySpace (c : Char) : Bool :=
  c == ' ' || c == '\t' || c == '\n' || c == '\r' || c == '\x0b' || c == '\x0c'

def isDig (c : Char) : Bool :=
  '0' ≤ c && c ≤ '9'

/-- A string character the embedded scanner accepts: CPython's strict string
scanner stops at `"`, escapes at `\` (unsupported here) and refuses raw
control characters below 0x20. -/
def strOkChar (c : Char) : Bool :=
  c ≠ '"' && c ≠ '\\' && 0x20 ≤ c.toNat

def skipJsonWs (cs : List Char) : List Char :=
  cs.dropWhile (fun c => isJsonWs c)

/-- A maximal digit run and the remainder (the scanner's `\d*`). -/
def takeDigs : List Char → List Char × List Char
  | [] => ([], [])
  | c :: cs =>
    if isDig c then
      let p := takeDigs cs
      (c :: p.1, p.2)
    else ([], c :: cs)

def digsToNat (ds : List Char) : Nat :=
  ds.foldl (fun acc c => acc * 10 + (c.toNat - '0'.toNat)) 0

/-- Body of a JSON string after the opening quote (CPython `scanstring`,
strict mode, escape-free subset: a backslash is a decode failure here). -/
def pStr (acc : List Char) : List Char → Option (List Char × List Char)
  | [] => none
  | c :: cs =>
    if c = '"' then some (acc.reverse, cs)
    else if strOkChar c then pStr (c :: acc) cs
    else none

/-- Does `NUMBER_RE`'s fraction/exponent part match here?  If so the CPython
match is a float, which this embedding rejects. -/
def expTailB : List Char → Bool
  | '+' :: d :: _ => isDig d
  | '-' :: d :: _ => isDig d
  | d :: _ => isDig d
  | [] => false

def floatTailB : List Char → Bool
  | '.' :: d :: _ => isDig d
  | 'e' :: r => expTailB r
  | 'E' :: r => expTailB r
  | _ => false

/-- The integer part `0|[1-9]\d*` of CPython's `NUMBER_RE`. -/
def pUNum : List Char → Option (Nat × List Char)
  | [] => none
  | c :: cs =>
    if c = '0' then some (0, cs)
    else if isDig c then
      let p := takeDigs cs
      some (digsToNat (c :: p.1), p.2)
    else none

/-- A JSON number at the head of the input, by `NUMBER_RE` semantics:
an optional minus, the integer part, and a decode failure (instead of a
float) when a fraction or exponent part follows. -/
def pNum (cs : List Char) : Option (Int × List Char) :=
  match cs with
  | '-' :: cs1 =>
    match pUNum cs1 with
    | some (n, r) => if floatTailB r then none else some (-(n : Int), r)
    | none => none
  | _ =>
    match pUNum cs with
    | some (n, r) => if floatTailB r then none else some ((n : Int), r)
    | none => none

/-- One step of Python dict insertion `d[k] = v`: an existing key keeps its
position and takes the new value, a fresh key is appended. -/
def pyDictAdd (acc : List (List Char × J)) (kv : List Char × J) :
    List (List Char × J) :=
  if acc.any (fun p => p.1 == kv.1) then
    acc.map (fun p => (p.1, if p.1 == kv.1 then kv.2 else p.2))
  else acc ++ [kv]

/-- `dict(pairs)`: fold the parsed member list through dict insertion. -/
def pyDict (ms : List (List Char × J)) : List (List Char × J) :=
  ms.foldl pyDictAdd []

mutual

/-- CPython `_scan_once` at the head of the input (no leading-whitespace
skip, exactly as `raw_decode` behaves): strings, the `JSONObject` and
`JSONArray` bodies (skip whitespace, empty container, else one-or-more
members/elements; object pairs go through `dict(pairs)`), the three
literals, else a number.  Fuel only bounds recursion depth; `rawDecode`
supplies more fuel than any input can consume. -/
def pVal : Nat → List Char → Option (J × List Char)
  | 0, _ => none
  | fuel + 1, cs =>
    match cs with
    | '"' :: r =>
      match pStr [] r with
      | some (s, r1) => some (.str s, r1)
      | none => none
    | '{' :: r =>
      match skipJsonWs r with
      | '}' :: r2 => some (.obj [], r2)
      | cs2 =>
        match pMembers fuel cs2 with
        | some (ms, r3) => some (.obj (pyDict ms), r3)
        | none => none
    | '[' :: r =>
      match skipJsonWs r with
      | ']' :: r2 => some (.arr [], r2)
      | cs2 =>
        match pElems fuel cs2 with
        | some (es, r3) => some (.arr es, r3)
        | none => none
    | 'n' :: 'u' :: 'l' :: 'l' :: r => some (.null, r)
    | 't' :: 'r' :: 'u' :: 'e' :: r => some (.bool true, r)
    | 'f' :: 'a' :: 'l' :: 's' :: 'e' :: r => some (.bool false, r)
    | cs2 =>
      match pNum cs2 with
      | some (n, r) => some (.num n, r)
      | none => none

/-- One-or-more comma-separated members, the head starting at a key's
opening quote. -/
def pMembers : Nat → List Char → Option (List (List Char × J) × List Char)
  | 0, _ => none
  | fuel + 1, cs =>
    match cs with
    | '"' :: r =>
      match pStr [] r with
      | some (k, r1) =>
        match skipJsonWs r1 with
        | ':' :: r2 =>
          match pVal fuel (skipJsonWs r2) with
          | some (v, r3) =>
            match skipJsonWs r3 with
            | ',' :: r4 =>
              match pMembers fuel (skipJsonWs r4) with
              | some (ms, r5) => some ((k, v) :: ms, r5)
              | none => none
            | '}' :: r4 => some ([(k, v)], r4)
            | _ => none
          | none => none
        | _ => none
      | none => none
    | _ => none

/-- One-or-more comma-separated array elements. -/
def pElems : Nat → List Char → Option (List J × List Char)
  | 0, _ => none
  | fuel + 1, cs =>
    match pVal fuel cs with
    | some (v, r) =>
      match skipJsonWs r with
      | ',' :: r2 =>
        match pElems fuel (skipJsonWs r2) with
        | some (es, r3) => some (v :: es, r3)
        | none => none
      | ']' :: r2 => some ([v], r2)
      | _ => none
    | none => none

end

/-- `json.JSONDecoder().raw_decode(s, i)` at suffix `cs = s[i:]`: decode one
value at the head, return it with the unconsumed remainder. -/
def rawDecode (cs : List Char) : Option (J × List Char) :=
  pVal (cs.length + 1) cs

/-- `json.loads`: skip leading whitespace, decode one value, require the
remainder to be whitespace only. -/
def pyLoads (cs : List Char) : Option J :=
  match rawDecode (skipJsonWs cs) with
  | some (v, r) => if (skipJsonWs r).isEmpty then some v else none
  | none => none

/-- Decimal digits of `n`, most significant first, in front of `acc`. -/
def natChars (n : Nat) (acc : List Char) : List Char :=
  if n < 10 then Char.ofNat ('0'.toNat + n % 10) :: acc
  else natChars (n / 10) (Char.ofNat ('0'.toNat + n % 10) :: acc)
termination_by n
decreasing_by omega

/-- Python `str` of an int: optional minus sign, then decimal digits. -/
def intChars (i : Int) : List Char :=
  if i < 0 then '-' :: natChars i.natAbs [] else natChars i.natAbs []

mutual

/-- `json.dumps(v, ensure_ascii=False, separators=(",", ":"))` on the
escape-free subset: the most compact rendering. -/
def renderL : J → List Char
  | .num n => intChars n
  | .null => ['n', 'u', 'l', 'l']
  | .str s => '"' :: (s ++ ['"'])
  | .bool true => ['t', 'r', 'u', 'e']
  | .arr es => '[' :: (renderEls es ++ [']'])
  | .bool false => ['f', 'a', 'l', 's', 'e']
  | .obj ms => '{' :: (renderMs ms ++ ['}'])

def renderEls : List J → List Char
  | [] => []
  | [e] => renderL e
  | e :: e2 :: es => renderL e ++ ',' :: renderEls (e2 :: es)

def renderMs : List (List Char × J) → List Char
  | [] => []
  | [(k, v)] => '"' :: (k ++ '"' :: ':' :: renderL v)
  | (k, v) :: m2 :: ms =>
    '"' :: (k ++ '"' :: ':' :: (renderL v ++ ',' :: renderMs (m2 :: ms)))

end

/-- Keys of an object are pairwise distinct (holds for every parsed object,
and is what makes rendering invert parsing). -/
def nodupKeys : List (List Char × J) → Bool
  | [] => true
  | (k, _) :: ms => !(ms.any (fun p => p.1 == k)) && nodupKeys ms

mutual

/-- The rendered-subset invariant: string payloads stay inside the
escape-free scanner alphabet and object keys are distinct. -/
def wfJ : J → Bool
  | .null => true
  | .bool _ => true
  | .num _ => true
  | .str s => s.all strOkChar
  | .arr es => wfArr es
  | .obj ms => wfMems ms && nodupKeys ms

def wfArr : List J → Bool
  | [] => true
  | e :: es => wfJ e && wfArr es

def wfMems : List (List Char × J) → Bool
  | [] => true
  | (k, v) :: ms => k.all strOkChar && wfJ v && wfMems ms

end

/-- A value that renders with an opening brace or bracket (a dict or a
list): the only shapes the iterator's failure-recovery jump can land on. -/
def structuredJ : J → Bool
  | .arr _ => true
  | .obj _ => true
  | _ => false

/-- A character at which CPython's `_scan_once` cannot start any value:
not an opening delimiter, quote, literal head (`null`/`true`/`false`,
also `NaN`/`Infinity`), sign or digit.  Prose made of such characters is
invisible to `_iter_json_objects`. -/
def inertChar (c : Char) : Bool :=
  !(c == '{' || c == '[' || c == '"' || c == 't' || c == 'f' || c == 'n' ||
    c == 'N' || c == 'I' || c == '-' || isDig c)

/-- The remainder does not extend a rendered integer under `NUMBER_RE`:
no digit, no fraction part, no exponent part can start here. -/
def numStopB : List Char → Bool
  | [] => true
  | c :: r =>
    if isDig c then false
    else if c = '.' then
      match r with
      | d :: _ => !isDig d
      | [] => true
    else if c = 'e' || c = 'E' then !expTailB r
    else true

/-- `Client._iter_json_objects` / `ai_agent._iter_json_objects`: skip
whitespace, try `raw_decode`, on failure jump to the next `{` or `[`
strictly after the failing position; stop when neither exists.  Fuel
bounds the loop; `length + 1` is always enough (each step consumes at
least one character). -/
def iterJsonF : Nat → List Char → List J
  | 0, _ => []
  | fuel + 1, cs =>
    match cs.dropWhile (fun c => pySpace c) with
    | [] => []
    | c :: r =>
      match rawDecode (c :: r) with
      | some (v, rem) => v :: iterJsonF fuel rem
      | none =>
        match r.dropWhile (fun d => !(d == '{' || d == '[')) with
        | [] => []
        | nxt => iterJsonF fuel nxt

def iter_json_objects (cs : List Char) : List J :=
  iterJsonF (cs.length + 1) cs

/-- The wrap step of `safe_json_loads` applied to the last decoded value:
a dict is returned as is; a non-empty list headed by a dict becomes that
first element; anything else is wrapped as `{"_value": value}`. -/
def jWrapLast : J → J
  | .obj ms => .obj ms
  | .arr (x :: xs) =>
    match x with
    | .obj ms => .obj ms
    | x2 => .obj [("_value".toList, .arr (x2 :: xs))]
  | other => .obj [("_value".toList, other)]

/-- `safe_json_loads` (identical in `chat.py` and `ai_agent.py`): keep the
last decoded value, `{}` when there was none, and apply the wrap step. -/
def safe_json_loads (cs : List Char) : J :=
  match (iter_json_objects cs).getLast? with
  | none => .obj []
  | some last => jWrapLast last

/-- An input interleaving prose with rendered JSON values: the prose `p0`,
then for each pair `(v, p)` the rendering of `v` followed by the prose
`p`.  Quantifying over such inputs captures model responses that mix
chatter with embedded JSON. -/
def proseJoin : List Char → List (J × List Char) → List Char
  | p0, [] => p0
  | p0, (v, p) :: rest => p0 ++ (renderL v ++ proseJoin p rest)

/-- `_minify_json_str`: re-dump a parseable JSON string in compact form,
return non-JSON text unchanged. -/
def minify_json_str (s : List Char) : List Char :=
  match pyLoads s with
  | some v => renderL v
  | none => s

/-- `_is_json_like`: after stripping leading whitespace, starts with `{`
or `[`. -/
def is_json_like (s : List Char) : Bool :=
  match s.dropWhile (fun c => pySpace c) with
  | c :: _ => c == '{' || c == '['
  | [] => false

def rstripL (l : List Char) : List Char :=
  (l.reverse.dropWhile (fun c => pySpace c)).reverse

def stripL (l : List Char) : List Char :=
  rstripL (l.dropWhile (fun c => pySpace c))

/-- `re.sub(r"\n{2,}", "\n", s)`: each maximal run of newlines becomes a
single newline (a run of one is already a single newline). -/
def collapseNl : List Char → List Char
  | [] => []
  | c :: cs =>
    if c = '\n' then '\n' :: collapseNl (cs.dropWhile (fun d => d == '\n'))
    else c :: collapseNl cs
termination_by cs => cs.length
decreasing_by
  · simp only [List.length_cons]
    exact Nat.lt_succ_of_le (List.dropWhile_sublist _).length_le
  · simp

def splitNlAux : List Char → List Char → List (List Char)
  | [], acc => [acc.reverse]
  | c :: cs, acc =>
    if c = '\n' then acc.reverse :: splitNlAux cs []
    else splitNlAux cs (c :: acc)

/-- `s.split("\n")`. -/
def splitNl (cs : List Char) : List (List Char) :=
  splitNlAux cs []

/-- `"\n".join(lines)`. -/
def joinNl : List (List Char) → List Char
  | [] => []
  | [l] => l
  | l :: l2 :: ls => l ++ '\n' :: joinNl (l2 :: ls)

def isSpTab (c : Char) : Bool :=
  c == ' ' || c == '\t'

/-- `re.sub(r"[ \t]{2,}", " ", line)`: a run of two or more blanks becomes
one space; a single blank (space or tab) stays as it is. -/
def collapseSpTab : List Char → List Char
  | [] => []
  | [c] => [c]
  | c :: d :: cs =>
    if isSpTab c && isSpTab d then
      ' ' :: collapseSpTab ((d :: cs).dropWhile (fun x => isSpTab x))
    else c :: collapseSpTab (d :: cs)
termination_by cs => cs.length
decreasing_by
  · simp only [List.length_cons]
    have := (List.dropWhile_sublist (l := d :: cs) (fun x => isSpTab x)).length_le
    simp only [List.length_cons] at this
    omega
  · simp

def btick : Char := Char.ofNat 96

/-- One line of `_squeeze_text`: indented or code-fence lines are only
right-stripped, other lines also get their blank runs collapsed. -/
def squeezeLine (line : List Char) : List Char :=
  if line.take 4 == [' ', ' ', ' ', ' '] ||
     (match line with | '\t' :: _ => true | _ => false) ||
     (stripL line).take 3 == [btick, btick, btick] then
    rstripL line
  else rstripL (collapseSpTab line)

/-- `_squeeze_text` (identical in `chat.py` and `ai_agent.py`): strip the
ends, collapse newline runs, then post-process each line. -/
def squeeze_text (s : List Char) : List Char :=
  joinNl ((splitNl (collapseNl (stripL s))).map squeezeLine)

/-! ### Round Controller loops (`Client.send`, `AIAgent.process_message`)

The model provider is an external effect: each round's reply is supplied
as an oracle `Nat → …` indexed by round, so the loop skeleton below is the
source's control flow with the network call abstracted to a lookup. -/

/-- `MAX_TOOL_ROUNDS` of `chat.py`. -/
def MAX_TOOL_ROUNDS : Nat := 1000

/-- One entry of the `Client.send` message list. -/
structure SendMsg where
  role : String
  content : String
deriving DecidableEq, Repr

/-- One round's model reply as `Client.send` consumes it: the finish
signal, the assistant content, and the tool-result messages the round's
tool-call loop appends (their contents are the executed calls' compressed
outputs; which tools ran does not matter to the round bound). -/
structure ModelTurn where
  finishStop : Bool
  content : String
  toolMsgs : List SendMsg

/-- The `while round_idx <= MAX_TOOL_ROUNDS` loop of `Client.send`:
`fuel` is the number of rounds the counter still allows.  Returns the
final message list, the returned message, and the number of model-call
rounds executed. -/
def sendLoop (resps : Nat → ModelTurn) : Nat → List SendMsg → Nat →
    List SendMsg × SendMsg × Nat
  | _, msgs, 0 =>
    let fm : SendMsg := ⟨"assistant", "[超出最大工具轮次]"⟩
    (msgs ++ [fm], fm, 0)
  | idx, msgs, fuel + 1 =>
    let r := resps idx
    let msgs1 := msgs ++ [⟨"assistant", r.content⟩]
    if r.finishStop then (msgs1, ⟨"assistant", r.content⟩, 1)
    else
      let out := sendLoop resps (idx + 1) (msgs1 ++ r.toolMsgs) fuel
      (out.1, out.2.1, out.2.2 + 1)

/-- `Client.send`: squeeze the user input, append it, run the round loop
with the `MAX_TOOL_ROUNDS` budget. -/
def client_send (resps : Nat → ModelTurn) (msgs0 : List SendMsg)
    (userInput : String) : List SendMsg × SendMsg × Nat :=
  sendLoop resps 0
    (msgs0 ++ [⟨"user", (squeeze_text userInput.toList).asString⟩])
    MAX_TOOL_ROUNDS

/-- One round's outcome inside `AIAgent.process_message`: the content and
finish reason `_get_intelligent_response` returned, and what
`_has_pending_tool_calls` says about that content. -/
structure AgentTurn where
  content : String
  finishStop : Bool
  hasPending : Bool

/-- `AGENT_MAX_TOOL_ROUNDS`: the local `MAX_TOOL_ROUNDS = 10` of
`AIAgent.process_message`. -/
def AGENT_MAX_TOOL_ROUNDS : Nat := 10

/-- The `while current_round < MAX_TOOL_ROUNDS` loop of
`AIAgent.process_message`: returns (rounds executed, `final_response` if a
`break` set it, the last round's `response_content`). -/
def agentLoop (resps : Nat → AgentTurn) : Nat → Nat → String →
    Nat × Option String × String
  | _, 0, last => (0, none, last)
  | idx, fuel + 1, _ =>
    let r := resps idx
    if r.finishStop then (1, some r.content, r.content)
    else if r.hasPending then
      let out := agentLoop resps (idx + 1) fuel r.content
      (out.1 + 1, out.2.1, out.2.2)
    else (1, some r.content, r.content)

/-- `AIAgent.process_message` round control: run the loop, then
`if not final_response: final_response = response_content`. -/
def process_message (resps : Nat → AgentTurn) : Nat × String :=
  let out := agentLoop resps 0 AGENT_MAX_TOOL_ROUNDS ""
  let fin := match out.2.1 with
    | some c => c
    | none => ""
  (out.1, if fin = "" then out.2.2 else fin)

/-! ### Tool registry, dispatch and the synthetic batch tool -/

/-- A registered tool body: keyword arguments in, a value out or a raised
exception (modelled as the error text). -/
def ToolFn : Type := List (List Char × J) → Except String J

/-- `d[k] = v` on a string-keyed Python dict held as an insertion-ordered
association list: an existing key keeps its position and takes the new
value. -/
def dUpd {α : Type} (d : List (String × α)) (k : String) (v : α) :
    List (String × α) :=
  if d.any (fun p => p.1 == k) then
    d.map (fun p => (p.1, if p.1 == k then v else p.2))
  else d ++ [(k, v)]

/-- Dict lookup `d[k]` / membership `k in d`. -/
def dGet {α : Type} (d : List (String × α)) (k : String) : Option α :=
  (d.find? (fun p => p.1 == k)).map (fun p => p.2)

/-- `_local_batch_exec` of `chat.py`: unknown tool → failure envelope;
else run the target once per `args_list` entry, tagging each entry with
its index and an independent ok/error outcome. -/
def local_batch_exec (reg : List (String × ToolFn)) (tool : String)
    (args_list : List J) : J :=
  match dGet reg tool with
  | none =>
    .obj [("ok".toList, .bool false),
          ("error".toList, .str ("unknown tool '" ++ tool ++ "'").toList)]
  | some fn =>
    let results := args_list.enum.map (fun p =>
      match p.2 with
      | .obj ms =>
        match fn ms with
        | .ok data =>
          J.obj [("i".toList, .num p.1), ("ok".toList, .bool true),
                 ("data".toList, data)]
        | .error e =>
          J.obj [("i".toList, .num p.1), ("ok".toList, .bool false),
                 ("error".toList, .str e.toList)]
      | _ =>
        J.obj [("i".toList, .num p.1), ("ok".toList, .bool false),
               ("error".toList,
                .str "each args in args_list must be an object".toList)])
    .obj [("ok".toList, .bool true), ("results".toList, .arr results)]

/-- `AIAgent._batch_exec`: the same loop against `available_tools`, with
the agent's error texts. -/
def batch_exec_agent (available_tools : List (String × ToolFn))
    (tool : String) (args_list : List J) : J :=
  match dGet available_tools tool with
  | none =>
    .obj [("ok".toList, .bool false),
          ("error".toList, .str ("未知工具 '" ++ tool ++ "'").toList)]
  | some fn =>
    let results := args_list.enum.map (fun p =>
      match p.2 with
      | .obj ms =>
        match fn ms with
        | .ok data =>
          J.obj [("i".toList, .num p.1), ("ok".toList, .bool true),
                 ("data".toList, data)]
        | .error e =>
          J.obj [("i".toList, .num p.1), ("ok".toList, .bool false),
                 ("error".toList, .str e.toList)]
      | _ =>
        J.obj [("i".toList, .num p.1), ("ok".toList, .bool false),
               ("error".toList,
                .str "args_list中的每个参数必须是字典对象".toList)])
    .obj [("ok".toList, .bool true), ("results".toList, .arr results)]

/-! ### Registry aggregation (`Client.get_mcp_tools`) -/

/-- One configured MCP server after startup was attempted: its config key,
the disabled flag, whether `MCPBridge(...)` raised, and the tool names its
bridge advertises. -/
structure ServerCfg where
  name : String
  disabled : Bool
  startFails : Bool
  toolNames : List String

/-- The identity of a bridge invoker closure: `_make_caller(tool)` of a
given bridge is determined by the owning server and the tool name. -/
def Invoker : Type := String × String

/-- The servers whose bridges contribute tools: not disabled and whose
startup did not raise (the loop `continue`s past both). -/
def activeServers (servers : List ServerCfg) : List ServerCfg :=
  servers.filter (fun b => !b.disabled && !b.startFails)

/-- A sequence of dict assignments applied in order. -/
def dOps {α : Type} (d : List (String × α)) (ops : List (String × α)) :
    List (String × α) :=
  ops.foldl (fun d2 p => dUpd d2 p.1 p.2) d

/-- `mcp_funcDict` after the server loop of `get_mcp_tools`:
`mcp_funcDict.update(bridge.get_func_map())` per active server, in
configuration order, then the local `batch_exec` entry. -/
def mcp_funcDict (servers : List ServerCfg) : List (String × Invoker) :=
  dUpd
    (dOps [] ((activeServers servers).flatMap (fun b =>
      b.toolNames.map (fun t => (t, ((b.name, t) : Invoker))))))
    "batch_exec" ("local-batch", "batch_exec")

/-- `_tool_to_service_map`: built from `mcp_service_info` in configuration
order (`for service_name …: for tool_name …: map[tool_name] =
service_name`), then the `batch_exec → "local-batch"` entry. -/
def tool_to_service_map (servers : List ServerCfg) : List (String × String) :=
  dUpd
    (dOps [] ((activeServers servers).flatMap (fun b =>
      b.toolNames.map (fun t => (t, b.name)))))
    "batch_exec" "local-batch"

/-! ### Bridge invocation fallback (`MCPBridge._make_caller`) -/

/-- What one `client.call_tool` attempt produced: a response envelope
(optional structured `data`, content items with an optional `text`
attribute), or a raised `ToolError` with its message text. -/
inductive CallOutcome where
  | ok (dataField : Option J) (contentTexts : List (Option (List Char)))
  | toolErr (msg : List Char)

/-- The result of the `_call` closure: a structured value, a text, or
`None`. -/
inductive CallResult where
  | data (v : J)
  | text (s : List Char)
  | noneVal

/-- The span `re.search(r'(\[.*\])', msg, re.S)` captures: from the first
`[` to the last `]`, when a `]` stands after a `[`. -/
def bracketSpan (msg : List Char) : Option (List Char) :=
  match msg.findIdx? (fun c => c == '[') with
  | none => none
  | some i =>
    match msg.reverse.findIdx? (fun c => c == ']') with
    | none => none
    | some jr =>
      let j := msg.length - 1 - jr
      if i < j then some ((msg.drop i).take (j - i + 1)) else none

def joinNlParts : List (List Char) → List Char
  | [] => []
  | [l] => l
  | l :: l2 :: ls => l ++ '\n' :: joinNlParts (l2 :: ls)

/-- The `except ToolError` branch of `_call`: recover the string elements
of a bracketed JSON array in the message, else return the message text. -/
def callOnToolError (msg : List Char) : List Char :=
  match bracketSpan msg with
  | some span =>
    match pyLoads span with
    | some (.arr xs) =>
      let textParts := xs.filterMap (fun x =>
        match x with
        | .str s => some s
        | _ => none)
      if textParts.isEmpty then msg else joinNlParts textParts
    | _ => msg
  | none => msg

/-- `for c in content: if hasattr(c, "text") and c.text: return c.text`. -/
def firstTruthyText : List (Option (List Char)) → Option (List Char)
  | [] => none
  | some s :: rest => if s.isEmpty then firstTruthyText rest else some s
  | none :: rest => firstTruthyText rest

/-- The `_call` closure `MCPBridge._make_caller` builds, as a function of
the provider call's outcome. -/
def make_caller_call (outcome : CallOutcome) : CallResult :=
  match outcome with
  | .toolErr msg => .text (callOnToolError msg)
  | .ok dataField contentTexts =>
    match dataField with
    | some v => .data v
    | none =>
      match firstTruthyText contentTexts with
      | some s => .text s
      | none => .noneVal

/-! ### Environment-variable resolvers -/

/-- `os.environ`: `none` models an unset variable. -/
def Env : Type := List Char → Option (List Char)

def startsWithL (p s : List Char) : Bool :=
  s.take p.length == p

def endsWithL (p s : List Char) : Bool :=
  startsWithL p.reverse s.reverse

/-- `pat in s` on strings. -/
def containsSub (pat : List Char) : List Char → Bool
  | [] => pat.isEmpty
  | c :: rest => startsWithL pat (c :: rest) || containsSub pat rest

/-- `s.replace(pat, rep)` for a non-empty `pat`: replace every
non-overlapping occurrence, scanning left to right. -/
def replaceAll (s pat rep : List Char) : List Char :=
  match s with
  | [] => []
  | c :: rest =>
    if h : pat ≠ [] ∧ startsWithL pat (c :: rest) then
      rep ++ replaceAll ((c :: rest).drop pat.length) pat rep
    else c :: replaceAll rest pat rep
termination_by s.length
decreasing_by
  · rcases h with ⟨hne, hpre⟩
    have : 1 ≤ pat.length := by
      cases pat with
      | nil => exact absurd rfl hne
      | cons a b => simp
    simp only [List.length_drop, List.length_cons]
    omega
  · simp

/-- `re.findall(r'\$\{([^}]+)\}', s)`: each match's group, in scan
order.  A failed attempt at some `$` resumes the scan one character
later, which next succeeds only at a later `$`. -/
def findBraced : List Char → List (List Char)
  | [] => []
  | '$' :: '\x7b' :: rest =>
    let name := rest.takeWhile (fun c => c ≠ '\x7d')
    if name.isEmpty then findBraced rest
    else if startsWithL ['\x7d'] (rest.drop name.length) then
      name :: findBraced (rest.drop (name.length + 1))
    else findBraced rest
  | _ :: rest => findBraced rest
termination_by s => s.length
decreasing_by
  all_goals simp only [List.length_cons, List.length_drop]
  all_goals omega

def identStart (c : Char) : Bool :=
  ('A' ≤ c && c ≤ 'Z') || ('a' ≤ c && c ≤ 'z') || c == '_'

def identChar (c : Char) : Bool :=
  identStart c || isDig c

/-- `re.findall(r'\$([A-Za-z_][A-Za-z0-9_]*)', s)`. -/
def findDollarIdents : List Char → List (List Char)
  | [] => []
  | '$' :: rest =>
    match rest with
    | [] => []
    | c :: rest2 =>
      if identStart c then
        let tailChars := rest2.takeWhile identChar
        (c :: tailChars) :: findDollarIdents (rest2.drop tailChars.length)
      else findDollarIdents (c :: rest2)
  | _ :: rest => findDollarIdents rest
termination_by s => s.length
decreasing_by
  all_goals simp only [List.length_cons, List.length_drop]
  all_goals omega

/-- The placeholder text `${name}`. -/
def bracedPat (name : List Char) : List Char :=
  '$' :: '\x7b' :: (name ++ ['\x7d'])

/-- `ConfigLoader._resolve_env_vars` on a string: only a whole-string
`${VAR}` is treated; a set variable's value replaces it, an unset one
becomes the empty string. -/
def resolve_env_vars_loader (env : Env) (s : List Char) : List Char :=
  if startsWithL ['$', '\x7b'] s && endsWithL ['\x7d'] s then
    match env ((s.drop 2).dropLast) with
    | some v => v
    | none => []
  else s

/-- `AIAgent._resolve_env_vars`: whole-string `${VAR}` and `$VAR` forms
return the value when it is set and non-empty, else the input; otherwise
the two `findall`-and-replace passes run, an unset variable's placeholder
being replaced by the bare variable name. -/
def resolve_env_vars_agent (env : Env) (value : List Char) : List Char :=
  if value.isEmpty then value
  else if startsWithL ['$', '\x7b'] value && endsWithL ['\x7d'] value then
    let ev := (env ((value.drop 2).dropLast)).getD []
    if ev.isEmpty then value else ev
  else if startsWithL ['$'] value && decide (1 < value.length) then
    let ev := (env (value.drop 1)).getD []
    if ev.isEmpty then value else ev
  else
    let v1 :=
      if containsSub ['$', '\x7b'] value && value.contains '\x7d' then
        (findBraced value).foldl (fun v name =>
          let ev := (env name).getD []
          replaceAll v (bracedPat name) (if ev.isEmpty then name else ev))
          value
      else value
    if v1.contains '$' && decide (1 < v1.length) then
      (findDollarIdents v1).foldl (fun v name =>
        let ev := (env name).getD []
        replaceAll v ('$' :: name) (if ev.isEmpty then name else ev)) v1
    else v1

/-! ### Per-message tool-call cap (`max_tool_calls_per_message`) -/

/-- `self.max_tool_calls_per_message = 3` in `AIAgent.__init__`. -/
def max_tool_calls_per_message : Nat := 3

/-- The execution loop of `AIAgent._handle_tool_calls_in_response`:
`for tool_call in tool_calls[:self.max_tool_calls_per_message]`. -/
def handle_tool_calls_in_response {Req Res : Type} (execCall : Req → Res)
    (parsedCalls : List Req) : List Res :=
  (parsedCalls.take max_tool_calls_per_message).map execCall

/-- The execution loop of `AIAgent._handle_standard_tool_calls`:
`for tool_call in message.tool_calls` — every request runs. -/
def handle_standard_tool_calls {Req Res : Type} (execCall : Req → Res)
    (toolCalls : List Req) : List Res :=
  toolCalls.map execCall

/-- The tool-call loop of one `Client.send` round:
`for call in resp.message.tool_calls` — every request runs. -/
def client_send_round_calls {Req Res : Type} (execCall : Req → Res)
    (toolCalls : List Req) : List Res :=
  toolCalls.map execCall

/-! ### `AIAgent.call_tool` and its wrapping caller -/

/-- `AIAgent.call_tool`: an unknown name raises `ValueError` (modelled as
`Except.error`), a known one runs the tool function, with the
`send_email` formatting hook applied first. -/
def call_tool (available_tools : List (String × ToolFn))
    (ensure_email_html_format : List (List Char × J) → List (List Char × J))
    (tool_name : String) (kwargs : List (List Char × J)) : Except String J :=
  match dGet available_tools tool_name with
  | none => .error ("工具 '" ++ tool_name ++ "' 不存在")
  | some fn =>
    let kwargs2 :=
      if tool_name == "send_email" then ensure_email_html_format kwargs
      else kwargs
    fn kwargs2

/-- A scalar's `str()` as `_compress_tool_result`'s last branch sees it. -/
def scalarStr : J → List Char
  | .null => "None".toList
  | .bool true => "True".toList
  | .bool false => "False".toList
  | .num n => intChars n
  | .str s => s
  | .arr _ => []
  | .obj _ => []

/-- `AIAgent._compress_tool_result`: `None` passes through, strings are
squeezed, dicts/lists become their minified JSON dump (a string), other
values become `str(result)` truncated past 500 characters. -/
def compress_tool_result (result : J) : J :=
  match result with
  | .null => .null
  | .str s => .str (squeeze_text s)
  | .arr es =>
    let js := renderL (.arr es)
    .str (if is_json_like js then minify_json_str js else squeeze_text js)
  | .obj ms =>
    let js := renderL (.obj ms)
    .str (if is_json_like js then minify_json_str js else squeeze_text js)
  | other =>
    let rs := scalarStr other
    .str (if 500 < rs.length then rs.take 500 ++ "...".toList else rs)

/-- The side condition a rendered value's remainder must satisfy: after a
rendered integer, `NUMBER_RE` must not be able to extend the match; other
shapes end in a self-delimiting character. -/
def restOkB : J → List Char → Bool
  | .num _, rest => numStopB rest
  | _, _ => true

/-- The success/failure envelope `AIAgent._execute_tool_call` produces. -/
structure ExecEnvelope where
  success : Bool
  result : Option J
  errorText : Option String

/-- `str.lower()` as the hint matching uses it (ASCII case folding). -/
def lowerL (s : List Char) : List Char := s.map Char.toLower

/-- The friendly-hint suffix `_execute_tool_call` appends to the error
message, chosen by keyword category. -/
def friendly_hint (e : String) : String :=
  if containsSub "参数".toList e.toList ||
      containsSub "argument".toList (lowerL e.toList) then
    "\n💡 **提示**: 请检查参数格式是否正确，或尝试使用不同的参数"
  else if containsSub "连接".toList e.toList ||
      containsSub "connection".toList (lowerL e.toList) then
    "\n🔌 **提示**: 请检查网络连接或服务是否正常运行"
  else if containsSub "权限".toList e.toList ||
      containsSub "permission".toList (lowerL e.toList) then
    "\n🔐 **提示**: 请检查是否有足够的权限执行此操作"
  else "\n🔄 **提示**: 请稍后重试或联系技术支持"

/-- `AIAgent._execute_tool_call`: wrap `call_tool`, converting a raised
error into a `success = False` envelope (with the hint-augmented message)
instead of propagating it. -/
def execute_tool_call (available_tools : List (String × ToolFn))
    (ensure_email_html_format : List (List Char × J) → List (List Char × J))
    (tool_name : String) (kwargs : List (List Char × J)) : ExecEnvelope :=
  match call_tool available_tools ensure_email_html_format tool_name kwargs with
  | .ok r => ⟨true, some (compress_tool_result r), none⟩
  | .error e => ⟨false, none, some ("工具执行异常: " ++ e ++ friendly_hint e)⟩

/-!
## Theorems

The development below establishes, per claim, either the claim as stated
or the closest statement the code satisfies, starting with the scanner
round-trip that underpins the parser claims.
-/

theorem digitChar_spec (k : Nat) (h : k < 10) :
    isDig (Char.ofNat ('0'.toNat + k)) = true ∧
    (Char.ofNat ('0'.toNat + k)).toNat - '0'.toNat = k := by
  interval_cases k <;> exact ⟨by decide, by decide⟩

theorem digitChar_ne_zero (k : Nat) (h1 : k < 10) (h2 : k ≠ 0) :
    Char.ofNat ('0'.toNat + k) ≠ '0' := by
  interval_cases k <;> first
    | exact absurd rfl h2
    | decide

theorem isDig_not_delim {c : Char} (h : isDig c = true) :
    c ≠ '"' ∧ c ≠ '{' ∧ c ≠ '[' ∧ c ≠ ']' ∧ c ≠ '}' ∧ c ≠ ',' ∧ c ≠ ':' ∧
    c ≠ 'n' ∧ c ≠ 't' ∧ c ≠ 'f' ∧ c ≠ '-' := by
  refine ⟨?_, ?_, ?_, ?_, ?_, ?_, ?_, ?_, ?_, ?_, ?_⟩ <;>
    (intro hc; subst hc; exact absurd h (by decide))

theorem isDig_not_ws {c : Char} (h : isDig c = true) :
    isJsonWs c = false ∧ pySpace c = false := by
  constructor
  · by_contra hw
    simp only [Bool.not_eq_false, isJsonWs, Bool.or_eq_true, beq_iff_eq] at hw
    rcases hw with ((rfl | rfl) | rfl) | rfl <;> exact absurd h (by decide)
  · by_contra hw
    simp only [Bool.not_eq_false, pySpace, Bool.or_eq_true, beq_iff_eq] at hw
    rcases hw with ((((rfl | rfl) | rfl) | rfl) | rfl) | rfl <;>
      exact absurd h (by decide)

theorem natChars_shift (n : Nat) : ∀ acc : List Char,
    natChars n acc = natChars n [] ++ acc := by
  induction n using Nat.strongRecOn with
  | _ n ih =>
    intro acc
    conv_lhs => rw [natChars.eq_def]
    conv_rhs => rw [natChars.eq_def]
    rcases Nat.lt_or_ge n 10 with hn | hn
    · simp [hn]
    · simp only [if_neg (by omega : ¬n < 10)]
      rw [ih (n / 10) (by omega), ih (n / 10) (by omega) [_]]
      simp

theorem natChars_last (n : Nat) :
    natChars n [] = (if n < 10 then [] else natChars (n / 10) []) ++
      [Char.ofNat ('0'.toNat + n % 10)] := by
  conv_lhs => rw [natChars.eq_def]
  by_cases h : n < 10
  · simp [h]
  · simp only [if_neg h]
    exact natChars_shift (n / 10) [_]

theorem natChars_ne_nil (n : Nat) : natChars n [] ≠ [] := by
  rw [natChars_last]
  simp

theorem natChars_all_dig (n : Nat) :
    ∀ c ∈ natChars n [], isDig c = true := by
  induction n using Nat.strongRecOn with
  | _ n ih =>
    rw [natChars_last]
    intro c hc
    rcases List.mem_append.mp hc with h | h
    · by_cases h10 : n < 10
      · simp [h10] at h
      · exact ih (n / 10) (by omega) c (by simpa [h10] using h)
    · rw [List.mem_singleton] at h
      subst h
      exact (digitChar_spec _ (Nat.mod_lt _ (by omega))).1

theorem digsToNat_natChars (n : Nat) : digsToNat (natChars n []) = n := by
  induction n using Nat.strongRecOn with
  | _ n ih =>
    rw [natChars_last]
    unfold digsToNat
    rw [List.foldl_append]
    by_cases h : n < 10
    · simp only [if_pos h, List.foldl_nil, List.foldl_cons]
      rw [(digitChar_spec _ (Nat.mod_lt _ (by omega))).2]
      omega
    · simp only [if_neg h, List.foldl_cons, List.foldl_nil]
      have := ih (n / 10) (by omega)
      unfold digsToNat at this
      rw [this, (digitChar_spec _ (Nat.mod_lt _ (by omega))).2]
      omega

theorem natChars_head (n : Nat) :
    ∃ c t, natChars n [] = c :: t ∧ isDig c = true ∧ (n ≠ 0 → c ≠ '0') := by
  by_cases h : n < 10
  · refine ⟨Char.ofNat ('0'.toNat + n % 10), [], ?_, ?_, ?_⟩
    · rw [natChars_last, if_pos h]; rfl
    · exact (digitChar_spec _ (Nat.mod_lt _ (by omega))).1
    · intro hn
      exact digitChar_ne_zero _ (Nat.mod_lt _ (by omega)) (by omega)
  · obtain ⟨c, t, hct, hdig, _⟩ := natChars_head (n / 10)
    refine ⟨c, t ++ [Char.ofNat ('0'.toNat + n % 10)], ?_, hdig, fun _ => ?_⟩
    · rw [natChars_last, if_neg h, hct]; rfl
    · obtain ⟨c2, t2, hct2, hdig2, hz2⟩ := natChars_head (n / 10)
      rw [hct2] at hct
      cases hct
      exact hz2 (by omega)
decreasing_by omega

theorem takeDigs_not_dig {c : Char} {t : List Char} (h : isDig c = false) :
    takeDigs (c :: t) = ([], c :: t) := by
  simp [takeDigs, h]

theorem takeDigs_of_numStop {cs : List Char} (h : numStopB cs = true) :
    takeDigs cs = ([], cs) := by
  match cs with
  | [] => rfl
  | c :: t =>
    apply takeDigs_not_dig
    simp only [numStopB] at h
    by_contra hd
    simp only [Bool.not_eq_false] at hd
    rw [if_pos hd] at h
    exact Bool.false_ne_true h

theorem takeDigs_run (ds : List Char) (hds : ∀ c ∈ ds, isDig c = true)
    (rest : List Char) (hrest : takeDigs rest = ([], rest)) :
    takeDigs (ds ++ rest) = (ds, rest) := by
  induction ds with
  | nil => simpa using hrest
  | cons c t ih =>
    have hc : isDig c = true := hds c (by simp)
    have ht := ih (fun x hx => hds x (by simp [hx]))
    simp [takeDigs, hc, ht]

theorem floatTailB_other {c : Char} {r : List Char} (h1 : c ≠ '.')
    (h2 : c ≠ 'e') (h3 : c ≠ 'E') : floatTailB (c :: r) = false := by
  unfold floatTailB
  split
  · rename_i heq; cases heq; exact absurd rfl h1
  · rename_i heq; cases heq; exact absurd rfl h2
  · rename_i heq; cases heq; exact absurd rfl h3
  · rfl

theorem floatTail_of_numStop {rest : List Char} (h : numStopB rest = true) :
    floatTailB rest = false := by
  match rest with
  | [] => rfl
  | c :: r =>
    simp only [numStopB] at h
    by_cases hd : isDig c = true
    · rw [if_pos hd] at h
      exact absurd h (by simp)
    · rw [if_neg hd] at h
      by_cases hdot : c = '.'
      · subst hdot
        rw [if_pos rfl] at h
        match r with
        | [] => rfl
        | d :: rd =>
          simp only [Bool.not_eq_true'] at h
          simp [floatTailB, h]
      · rw [if_neg hdot] at h
        by_cases he : c = 'e'
        · subst he
          rw [if_pos (by decide)] at h
          simp only [Bool.not_eq_true'] at h
          simp [floatTailB, h]
        · by_cases hE : c = 'E'
          · subst hE
            rw [if_pos (by decide)] at h
            simp only [Bool.not_eq_true'] at h
            simp [floatTailB, h]
          · exact floatTailB_other hdot he hE

theorem pUNum_render (n : Nat) (rest : List Char)
    (hrest : takeDigs rest = ([], rest)) :
    pUNum (natChars n [] ++ rest) = some (n, rest) := by
  by_cases h0 : n = 0
  · subst h0
    have hz : natChars 0 [] = ['0'] := by
      rw [natChars_last]
      simp only [if_pos (by omega : (0 : Nat) < 10), List.nil_append]
      decide
    rw [hz]
    simp [pUNum]
  · obtain ⟨c, t, hct, hdig, hzn⟩ := natChars_head n
    have hc0 : c ≠ '0' := hzn h0
    have htd : ∀ x ∈ t, isDig x = true := fun x hx =>
      natChars_all_dig n x (by rw [hct]; exact List.mem_cons_of_mem _ hx)
    rw [hct]
    simp only [List.cons_append, pUNum]
    rw [if_neg hc0, if_pos hdig]
    have htake : takeDigs (t ++ rest) = (t, rest) := takeDigs_run t htd rest hrest
    simp only [htake]
    have : digsToNat (c :: t) = n := by
      rw [← hct]
      exact digsToNat_natChars n
    rw [this]

theorem pNum_render (i : Int) (rest : List Char) (hr : numStopB rest = true) :
    pNum (intChars i ++ rest) = some (i, rest) := by
  have hstop := takeDigs_of_numStop hr
  have hft := floatTail_of_numStop hr
  by_cases hi : i < 0
  · have : intChars i ++ rest = '-' :: (natChars i.natAbs [] ++ rest) := by
      simp [intChars, hi]
    rw [this]
    simp only [pNum, pUNum_render _ _ hstop, hft]
    simp only [if_neg Bool.false_ne_true]
    congr 1
    congr 1
    omega
  · have hren : intChars i ++ rest = natChars i.natAbs [] ++ rest := by
      simp [intChars, hi]
    obtain ⟨c, t, hct, hdig, _⟩ := natChars_head i.natAbs
    rw [hren, hct]
    unfold pNum
    split
    · rename_i cs1 heq
      rw [List.cons_append] at heq
      cases heq
      exact absurd hdig (by decide)
    · rw [← hct, pUNum_render _ _ hstop]
      have hnn : ((i.natAbs : Int)) = i := Int.natAbs_of_nonneg (by omega)
      simp [hft, hnn]

theorem strOkChar_facts {c : Char} (h : strOkChar c = true) :
    c ≠ '"' ∧ c ≠ '\\' := by
  simp only [strOkChar, Bool.and_eq_true, decide_eq_true_eq] at h
  exact ⟨h.1.1, h.1.2⟩

theorem pStr_run (s : List Char) : ∀ (acc rest : List Char),
    s.all strOkChar = true →
    pStr acc (s ++ '"' :: rest) = some (acc.reverse ++ s, rest) := by
  induction s with
  | nil =>
    intro acc rest _
    simp [pStr]
  | cons c t ih =>
    intro acc rest hall
    simp only [List.all_cons, Bool.and_eq_true] at hall
    have hq : ¬(c = '"') := (strOkChar_facts hall.1).1
    simp only [List.cons_append, pStr, List.append_eq]
    rw [if_neg hq, if_pos hall.1, ih _ _ hall.2]
    simp

theorem renderL_head (v : J) :
    ∃ c t, renderL v = c :: t ∧ isJsonWs c = false ∧ pySpace c = false ∧
      c ≠ ']' ∧ c ≠ '}' ∧ c ≠ ',' := by
  cases v with
  | null => exact ⟨'n', _, rfl, by decide, by decide, by decide, by decide, by decide⟩
  | bool b =>
    cases b with
    | true => exact ⟨'t', _, rfl, by decide, by decide, by decide, by decide, by decide⟩
    | false => exact ⟨'f', _, rfl, by decide, by decide, by decide, by decide, by decide⟩
  | str s => exact ⟨'"', _, rfl, by decide, by decide, by decide, by decide, by decide⟩
  | arr es => exact ⟨'[', _, rfl, by decide, by decide, by decide, by decide, by decide⟩
  | obj ms => exact ⟨'{', _, rfl, by decide, by decide, by decide, by decide, by decide⟩
  | num i =>
    by_cases hi : i < 0
    · refine ⟨'-', natChars i.natAbs [], ?_, by decide, by decide, by decide,
        by decide, by decide⟩
      simp [renderL, intChars, hi]
    · obtain ⟨c, t, hct, hdig, _⟩ := natChars_head i.natAbs
      obtain ⟨hw1, hw2⟩ := isDig_not_ws hdig
      obtain ⟨_, _, _, hbr, hbc, hcm, _, _, _, _, _⟩ := isDig_not_delim hdig
      refine ⟨c, t, ?_, hw1, hw2, hbr, hbc, hcm⟩
      rw [show renderL (.num i) = intChars i from rfl]
      simp [intChars, hi, hct]

theorem renderL_ne_nil (v : J) : renderL v ≠ [] := by
  obtain ⟨c, t, hct, _⟩ := renderL_head v
  simp [hct]

theorem skipJsonWs_cons {c : Char} {t : List Char} (h : isJsonWs c = false) :
    skipJsonWs (c :: t) = c :: t := by
  simp [skipJsonWs, List.dropWhile_cons, h]

theorem skipJsonWs_render (v : J) (x : List Char) :
    skipJsonWs (renderL v ++ x) = renderL v ++ x := by
  obtain ⟨c, t, hct, hws, _⟩ := renderL_head v
  rw [hct, List.cons_append]
  exact skipJsonWs_cons hws

theorem pStr_chars : ∀ (cs acc s r : List Char), pStr acc cs = some (s, r) →
    acc.all strOkChar = true → s.all strOkChar = true := by
  intro cs
  induction cs with
  | nil => intro acc s r h; simp [pStr] at h
  | cons c t ih =>
    intro acc s r h hacc
    simp only [pStr] at h
    by_cases hq : c = '"'
    · rw [if_pos hq] at h
      cases h
      simpa using hacc
    · rw [if_neg hq] at h
      by_cases hok : strOkChar c = true
      · rw [if_pos hok] at h
        exact ih _ _ _ h (by simp [hok, hacc])
      · rw [if_neg hok] at h
        cases h

/-- The key list is untouched by an overwriting `pyDictAdd` map step. -/
theorem map_overwrite_keys (acc : List (List Char × J)) (k : List Char)
    (v : J) (q : List Char) :
    ((acc.map (fun p => (p.1, if p.1 == k then v else p.2))).any
      (fun p => p.1 == q)) = acc.any (fun p => p.1 == q) := by
  induction acc with
  | nil => rfl
  | cons a t ih =>
    simp only [List.map_cons, List.any_cons, ih]

theorem nodupKeys_overwrite (acc : List (List Char × J)) (k : List Char)
    (v : J) (h : nodupKeys acc = true) :
    nodupKeys (acc.map (fun p => (p.1, if p.1 == k then v else p.2))) = true := by
  induction acc with
  | nil => rfl
  | cons a t ih =>
    simp only [nodupKeys, Bool.and_eq_true, Bool.not_eq_true'] at h
    simp only [List.map_cons, nodupKeys, Bool.and_eq_true, Bool.not_eq_true']
    exact ⟨by rw [map_overwrite_keys]; exact h.1, ih h.2⟩

theorem nodupKeys_append_one (acc : List (List Char × J))
    (kv : List Char × J) (h : nodupKeys acc = true)
    (hfresh : acc.any (fun p => p.1 == kv.1) = false) :
    nodupKeys (acc ++ [kv]) = true := by
  induction acc with
  | nil => simp [nodupKeys]
  | cons a t ih =>
    simp only [nodupKeys, Bool.and_eq_true, Bool.not_eq_true'] at h
    simp only [List.any_cons, Bool.or_eq_false_iff] at hfresh
    simp only [List.cons_append, nodupKeys, Bool.and_eq_true, Bool.not_eq_true']
    refine ⟨?_, ih h.2 hfresh.2⟩
    rw [List.any_eq_false]
    intro p hp
    rcases List.mem_append.mp hp with hp1 | hp2
    · exact (List.any_eq_false.mp h.1) p hp1
    · rw [List.mem_singleton] at hp2
      rw [hp2]
      have h3 : a.1 ≠ kv.1 := by simpa [beq_eq_false_iff_ne] using hfresh.1
      simp only [Bool.not_eq_true, beq_eq_false_iff_ne]
      exact fun hk => h3 hk.symm

theorem wfMems_overwrite (acc : List (List Char × J)) (k : List Char) (v : J)
    (h : wfMems acc = true) (hv : wfJ v = true) :
    wfMems (acc.map (fun p => (p.1, if p.1 == k then v else p.2))) = true := by
  induction acc with
  | nil => rfl
  | cons a t ih =>
    simp only [wfMems, Bool.and_eq_true] at h
    obtain ⟨⟨hk1, hv1⟩, ht⟩ := h
    simp only [List.map_cons, wfMems, Bool.and_eq_true]
    refine ⟨⟨hk1, ?_⟩, ih ht⟩
    by_cases heq : (a.1 == k) = true
    · rw [if_pos heq]; exact hv
    · rw [if_neg heq]; exact hv1

theorem wfMems_append_one (acc : List (List Char × J)) (kv : List Char × J)
    (h : wfMems acc = true) (hk : kv.1.all strOkChar = true)
    (hv : wfJ kv.2 = true) : wfMems (acc ++ [kv]) = true := by
  induction acc with
  | nil =>
    cases kv
    simp only [List.nil_append, wfMems, Bool.and_eq_true]
    exact ⟨⟨hk, hv⟩, trivial⟩
  | cons a t ih =>
    simp only [wfMems, Bool.and_eq_true] at h
    cases a with
    | mk a1 a2 =>
      simp only [List.cons_append, wfMems, Bool.and_eq_true]
      exact ⟨h.1, ih h.2⟩

theorem pyDictAdd_good (acc : List (List Char × J)) (kv : List Char × J)
    (h1 : wfMems acc = true) (h2 : nodupKeys acc = true)
    (hk : kv.1.all strOkChar = true) (hv : wfJ kv.2 = true) :
    wfMems (pyDictAdd acc kv) = true ∧ nodupKeys (pyDictAdd acc kv) = true := by
  unfold pyDictAdd
  by_cases hmem : acc.any (fun p => p.1 == kv.1) = true
  · rw [if_pos hmem]
    exact ⟨wfMems_overwrite acc kv.1 kv.2 h1 hv,
           nodupKeys_overwrite acc kv.1 kv.2 h2⟩
  · rw [if_neg hmem]
    have hf : acc.any (fun p => p.1 == kv.1) = false := by
      revert hmem
      cases acc.any (fun p => p.1 == kv.1) <;> simp
    exact ⟨wfMems_append_one acc kv h1 hk hv,
           nodupKeys_append_one acc kv h2 hf⟩

theorem pyDict_good : ∀ (ms acc : List (List Char × J)),
    wfMems ms = true → wfMems acc = true → nodupKeys acc = true →
    wfMems (ms.foldl pyDictAdd acc) = true ∧
    nodupKeys (ms.foldl pyDictAdd acc) = true := by
  intro ms
  induction ms with
  | nil => intro acc _ h1 h2; exact ⟨h1, h2⟩
  | cons m t ih =>
    intro acc hm h1 h2
    simp only [wfMems, Bool.and_eq_true] at hm
    obtain ⟨⟨hk, hv⟩, ht⟩ := hm
    simp only [List.foldl_cons]
    obtain ⟨g1, g2⟩ := pyDictAdd_good acc m h1 h2 hk hv
    exact ih _ ht g1 g2

theorem pyDict_wf (ms : List (List Char × J)) (h : wfMems ms = true) :
    wfMems (pyDict ms) = true ∧ nodupKeys (pyDict ms) = true :=
  pyDict_good ms [] h rfl rfl

theorem pyDict_self_go : ∀ (ms acc : List (List Char × J)),
    nodupKeys ms = true →
    (∀ q ∈ ms, acc.any (fun p => p.1 == q.1) = false) →
    ms.foldl pyDictAdd acc = acc ++ ms := by
  intro ms
  induction ms with
  | nil => intro acc _ _; simp
  | cons m t ih =>
    intro acc hnd hdis
    simp only [nodupKeys, Bool.and_eq_true, Bool.not_eq_true'] at hnd
    simp only [List.foldl_cons]
    have hadd : pyDictAdd acc m = acc ++ [m] := by
      unfold pyDictAdd
      rw [if_neg (by simp [hdis m (by simp)])]
    have hdis2 : ∀ q ∈ t, (acc ++ [m]).any (fun p => p.1 == q.1) = false := by
      intro q hq
      simp only [List.any_append, Bool.or_eq_false_iff]
      refine ⟨hdis q (List.mem_cons_of_mem _ hq), ?_⟩
      simp only [List.any_cons, List.any_nil, Bool.or_false]
      have h1 : (q.1 == m.1) = false := by
        have h2 := hnd.1
        rw [List.any_eq_false] at h2
        simpa using h2 q hq
      rw [beq_eq_false_iff_ne] at h1 ⊢
      exact fun he => h1 he.symm
    rw [hadd, ih (acc ++ [m]) hnd.2 hdis2, List.append_assoc, List.singleton_append]

theorem pyDict_self (ms : List (List Char × J)) (h : nodupKeys ms = true) :
    pyDict ms = ms := by
  have := pyDict_self_go ms [] h (by intro q _; rfl)
  simpa using this

theorem len_skipJsonWs (cs : List Char) :
    (skipJsonWs cs).length ≤ cs.length :=
  (List.dropWhile_sublist _).length_le

theorem len_pStr : ∀ (cs acc s r : List Char),
    pStr acc cs = some (s, r) → r.length < cs.length := by
  intro cs
  induction cs with
  | nil => intro acc s r h; simp [pStr] at h
  | cons c t ih =>
    intro acc s r h
    simp only [pStr] at h
    by_cases hq : c = '"'
    · rw [if_pos hq] at h
      cases h
      simp
    · rw [if_neg hq] at h
      by_cases hok : strOkChar c = true
      · rw [if_pos hok] at h
        have := ih _ _ _ h
        simp only [List.length_cons]
        omega
      · rw [if_neg hok] at h
        cases h

theorem len_takeDigs (cs : List Char) : (takeDigs cs).2.length ≤ cs.length := by
  induction cs with
  | nil => simp [takeDigs]
  | cons c t ih =>
    simp only [takeDigs]
    by_cases hd : isDig c = true
    · rw [if_pos hd]
      simp only [List.length_cons]
      omega
    · rw [if_neg hd]

theorem len_pUNum {cs r : List Char} {n : Nat} (h : pUNum cs = some (n, r)) :
    r.length < cs.length := by
  match cs with
  | [] => simp [pUNum] at h
  | c :: t =>
    simp only [pUNum] at h
    by_cases h0 : c = '0'
    · rw [if_pos h0] at h
      cases h
      simp
    · rw [if_neg h0] at h
      by_cases hd : isDig c = true
      · rw [if_pos hd] at h
        cases h
        have := len_takeDigs t
        simp only [List.length_cons]
        omega
      · rw [if_neg hd] at h
        cases h

theorem pNum_not_neg {c : Char} {t : List Char} (hc : c ≠ '-') :
    pNum (c :: t) =
      (match pUNum (c :: t) with
       | some (n, r) => if floatTailB r then none else some ((n : Int), r)
       | none => none) := by
  unfold pNum
  split
  · rename_i cs1 heq
    rw [List.cons.injEq] at heq
    exact absurd heq.1 hc
  · rfl

theorem len_pNum {cs r : List Char} {i : Int} (h : pNum cs = some (i, r)) :
    r.length < cs.length := by
  match cs with
  | [] => simp [pNum, pUNum] at h
  | c :: t =>
    by_cases hc : c = '-'
    · subst hc
      simp only [pNum] at h
      cases hu : pUNum t with
      | none => rw [hu] at h; cases h
      | some p =>
        obtain ⟨n2, r2⟩ := p
        rw [hu] at h
        by_cases hf : floatTailB r2 = true
        · simp [hf] at h
        · simp only [hf, Bool.false_eq_true, if_false] at h
          cases h
          have := len_pUNum hu
          simp only [List.length_cons]
          omega
    · rw [pNum_not_neg hc] at h
      cases hu : pUNum (c :: t) with
      | none => rw [hu] at h; cases h
      | some p =>
        obtain ⟨n2, r2⟩ := p
        rw [hu] at h
        by_cases hf : floatTailB r2 = true
        · simp [hf] at h
        · simp only [hf, Bool.false_eq_true, if_false] at h
          cases h
          exact len_pUNum hu

mutual

theorem len_pVal : ∀ (fuel : Nat) (cs : List Char) (v : J) (r : List Char),
    pVal fuel cs = some (v, r) → r.length < cs.length
  | 0, _, _, _, h => by simp [pVal] at h
  | fuel + 1, cs, v, r, h => by
    simp only [pVal] at h
    split at h
    · split at h
      · rename_i s r1 heq
        cases h
        have := len_pStr _ _ _ _ heq
        simp only [List.length_cons]
        omega
      · cases h
    · rename_i rb
      split at h
      · rename_i r2 heq
        cases h
        have h1 := len_skipJsonWs rb
        have h2 : (skipJsonWs rb).length = r.length + 1 := by rw [heq]; simp
        simp only [List.length_cons]
        omega
      · split at h
        · rename_i ms r3 heq
          cases h
          have h1 := len_skipJsonWs rb
          have h2 := len_pMembers fuel _ _ _ heq
          simp only [List.length_cons]
          omega
        · cases h
    · rename_i rb
      split at h
      · rename_i r2 heq
        cases h
        have h1 := len_skipJsonWs rb
        have h2 : (skipJsonWs rb).length = r.length + 1 := by rw [heq]; simp
        simp only [List.length_cons]
        omega
      · split at h
        · rename_i es r3 heq
          cases h
          have h1 := len_skipJsonWs rb
          have h2 := len_pElems fuel _ _ _ heq
          simp only [List.length_cons]
          omega
        · cases h
    · cases h; simp only [List.length_cons]; omega
    · cases h; simp only [List.length_cons]; omega
    · cases h; simp only [List.length_cons]; omega
    · split at h
      · rename_i n r1 heq
        cases h
        exact len_pNum heq
      · cases h

theorem len_pMembers : ∀ (fuel : Nat) (cs : List Char)
    (ms : List (List Char × J)) (r : List Char),
    pMembers fuel cs = some (ms, r) → r.length < cs.length
  | 0, _, _, _, h => by simp [pMembers] at h
  | fuel + 1, cs, ms, r, h => by
    simp only [pMembers] at h
    split at h
    · rename_i rk
      split at h
      · rename_i k r1 heqs
        split at h
        · rename_i r2 heqw
          split at h
          · rename_i v r3 heqv
            split at h
            · rename_i r4 heqc
              split at h
              · rename_i ms5 r5 heqm
                cases h
                have l1 := len_pStr _ _ _ _ heqs
                have l2 := len_skipJsonWs r1
                have l3 : (skipJsonWs r1).length = r2.length + 1 := by
                  rw [heqw]; simp
                have l4 := len_skipJsonWs r2
                have l5 := len_pVal fuel _ _ _ heqv
                have l6 := len_skipJsonWs r3
                have l7 : (skipJsonWs r3).length = r4.length + 1 := by
                  rw [heqc]; simp
                have l8 := len_skipJsonWs r4
                have l9 := len_pMembers fuel _ _ _ heqm
                simp only [List.length_cons]
                omega
              · cases h
            · rename_i r4 heqc
              cases h
              have l1 := len_pStr _ _ _ _ heqs
              have l2 := len_skipJsonWs r1
              have l3 : (skipJsonWs r1).length = r2.length + 1 := by
                rw [heqw]; simp
              have l4 := len_skipJsonWs r2
              have l5 := len_pVal fuel _ _ _ heqv
              have l6 := len_skipJsonWs r3
              have l7 : (skipJsonWs r3).length = r.length + 1 := by
                rw [heqc]; simp
              simp only [List.length_cons]
              omega
            · cases h
          · cases h
        · cases h
      · cases h
    · cases h

theorem len_pElems : ∀ (fuel : Nat) (cs : List Char) (es : List J)
    (r : List Char), pElems fuel cs = some (es, r) → r.length < cs.length
  | 0, _, _, _, h => by simp [pElems] at h
  | fuel + 1, cs, es, r, h => by
    simp only [pElems] at h
    split at h
    · rename_i v r1 heqv
      split at h
      · rename_i r2 heqc
        split at h
        · rename_i es3 r3 heqe
          cases h
          have l1 := len_pVal fuel _ _ _ heqv
          have l2 := len_skipJsonWs r1
          have l3 : (skipJsonWs r1).length = r2.length + 1 := by
            rw [heqc]; simp
          have l4 := len_skipJsonWs r2
          have l5 := len_pElems fuel _ _ _ heqe
          omega
        · cases h
      · rename_i r2 heqc
        cases h
        have l1 := len_pVal fuel _ _ _ heqv
        have l2 := len_skipJsonWs r1
        have l3 : (skipJsonWs r1).length = r.length + 1 := by
          rw [heqc]; simp
        omega
      · cases h
    · cases h

end

mutual

theorem wf_pVal : ∀ (fuel : Nat) (cs : List Char) (v : J) (r : List Char),
    pVal fuel cs = some (v, r) → wfJ v = true
  | 0, _, _, _, h => by simp [pVal] at h
  | fuel + 1, cs, v, r, h => by
    simp only [pVal] at h
    split at h
    · split at h
      · rename_i s r1 heq
        cases h
        simp only [wfJ]
        exact pStr_chars _ _ _ _ heq rfl
      · cases h
    · split at h
      · cases h
        simp [wfJ, wfMems, nodupKeys]
      · split at h
        · rename_i ms r3 heq
          cases h
          have hm := wf_pMembers fuel _ _ _ heq
          obtain ⟨g1, g2⟩ := pyDict_wf ms hm
          simp [wfJ, g1, g2]
        · cases h
    · split at h
      · cases h
        simp [wfJ, wfArr]
      · split at h
        · rename_i es r3 heq
          cases h
          have := wf_pElems fuel _ _ _ heq
          simp [wfJ, this]
        · cases h
    · cases h; simp [wfJ]
    · cases h; simp [wfJ]
    · cases h; simp [wfJ]
    · split at h
      · cases h; simp [wfJ]
      · cases h

theorem wf_pMembers : ∀ (fuel : Nat) (cs : List Char)
    (ms : List (List Char × J)) (r : List Char),
    pMembers fuel cs = some (ms, r) → wfMems ms = true
  | 0, _, _, _, h => by simp [pMembers] at h
  | fuel + 1, cs, ms, r, h => by
    simp only [pMembers] at h
    split at h
    · rename_i rk
      split at h
      · rename_i k r1 heqs
        split at h
        · rename_i r2 heqw
          split at h
          · rename_i v r3 heqv
            split at h
            · rename_i r4 heqc
              split at h
              · rename_i ms5 r5 heqm
                cases h
                simp only [wfMems, Bool.and_eq_true]
                exact ⟨⟨pStr_chars _ _ _ _ heqs rfl,
                       wf_pVal fuel _ _ _ heqv⟩,
                       wf_pMembers fuel _ _ _ heqm⟩
              · cases h
            · cases h
              simp only [wfMems, Bool.and_eq_true]
              exact ⟨⟨pStr_chars _ _ _ _ heqs rfl,
                     wf_pVal fuel _ _ _ heqv⟩, trivial⟩
            · cases h
          · cases h
        · cases h
      · cases h
    · cases h

theorem wf_pElems : ∀ (fuel : Nat) (cs : List Char) (es : List J)
    (r : List Char), pElems fuel cs = some (es, r) → wfArr es = true
  | 0, _, _, _, h => by simp [pElems] at h
  | fuel + 1, cs, es, r, h => by
    simp only [pElems] at h
    split at h
    · rename_i v r1 heqv
      split at h
      · split at h
        · rename_i es3 r3 heqe
          cases h
          simp only [wfArr, Bool.and_eq_true]
          exact ⟨wf_pVal fuel _ _ _ heqv, wf_pElems fuel _ _ _ heqe⟩
        · cases h
      · cases h
        simp only [wfArr, Bool.and_eq_true]
        exact ⟨wf_pVal fuel _ _ _ heqv, trivial⟩
      · cases h
    · cases h

end

theorem pVal_quote (f : Nat) (r : List Char) :
    pVal (f + 1) ('"' :: r) =
      (match pStr [] r with
       | some (s, r1) => some (J.str s, r1)
       | none => none) := by
  simp only [pVal]

theorem pVal_lbrace_go (f : Nat) {c : Char} {y : List Char} (hc : c ≠ '}')
    (hws : isJsonWs c = false) :
    pVal (f + 1) ('{' :: (c :: y)) =
      (match pMembers f (c :: y) with
       | some (ms, r3) => some (J.obj (pyDict ms), r3)
       | none => none) := by
  simp only [pVal, skipJsonWs_cons hws]
  split
  · rename_i heq
    rw [List.cons.injEq] at heq
    exact absurd heq.1 hc
  · rfl

theorem pVal_lbrack_go (f : Nat) {c : Char} {y : List Char} (hc : c ≠ ']')
    (hws : isJsonWs c = false) :
    pVal (f + 1) ('[' :: (c :: y)) =
      (match pElems f (c :: y) with
       | some (es, r3) => some (J.arr es, r3)
       | none => none) := by
  simp only [pVal, skipJsonWs_cons hws]
  split
  · rename_i heq
    rw [List.cons.injEq] at heq
    exact absurd heq.1 hc
  · rfl

theorem pVal_null (f : Nat) (r : List Char) :
    pVal (f + 1) ('n' :: 'u' :: 'l' :: 'l' :: r) = some (.null, r) := by
  simp only [pVal]

theorem pVal_true (f : Nat) (r : List Char) :
    pVal (f + 1) ('t' :: 'r' :: 'u' :: 'e' :: r) = some (.bool true, r) := by
  simp only [pVal]

theorem pVal_false (f : Nat) (r : List Char) :
    pVal (f + 1) ('f' :: 'a' :: 'l' :: 's' :: 'e' :: r) =
      some (.bool false, r) := by
  simp only [pVal]

theorem pVal_other (f : Nat) (c : Char) (t : List Char)
    (h1 : c ≠ '"') (h2 : c ≠ '{') (h3 : c ≠ '[') (h4 : c ≠ 'n')
    (h5 : c ≠ 't') (h6 : c ≠ 'f') :
    pVal (f + 1) (c :: t) =
      (match pNum (c :: t) with
       | some (n, r) => some (J.num n, r)
       | none => none) := by
  simp only [pVal]
  split
  · rename_i heq
    rw [List.cons.injEq] at heq
    exact absurd heq.1 h1
  · rename_i heq
    rw [List.cons.injEq] at heq
    exact absurd heq.1 h2
  · rename_i heq
    rw [List.cons.injEq] at heq
    exact absurd heq.1 h3
  · rename_i heq
    rw [List.cons.injEq] at heq
    exact absurd heq.1 h4
  · rename_i heq
    rw [List.cons.injEq] at heq
    exact absurd heq.1 h5
  · rename_i heq
    rw [List.cons.injEq] at heq
    exact absurd heq.1 h6
  · rfl

theorem numStop_head {c : Char} {t : List Char} (h1 : isDig c = false)
    (h2 : c ≠ '.') (h3 : c ≠ 'e') (h4 : c ≠ 'E') :
    numStopB (c :: t) = true := by
  simp only [numStopB]
  rw [if_neg (by simp [h1]), if_neg h2, if_neg (by simp [h3, h4])]

theorem restOk_head (v : J) {c : Char} {t : List Char} (h1 : isDig c = false)
    (h2 : c ≠ '.') (h3 : c ≠ 'e') (h4 : c ≠ 'E') :
    restOkB v (c :: t) = true := by
  cases v <;> simp [restOkB, numStop_head h1 h2 h3 h4]

theorem restOk_comma (v : J) (t : List Char) : restOkB v (',' :: t) = true :=
  restOk_head v (by decide) (by decide) (by decide) (by decide)

theorem restOk_rbrack (v : J) (t : List Char) : restOkB v (']' :: t) = true :=
  restOk_head v (by decide) (by decide) (by decide) (by decide)

theorem restOk_rbrace (v : J) (t : List Char) : restOkB v ('}' :: t) = true :=
  restOk_head v (by decide) (by decide) (by decide) (by decide)

theorem renderEls_cons (e : J) (es : List J) :
    renderEls (e :: es) =
      renderL e ++ (match es with
        | [] => ([] : List Char)
        | e2 :: es2 => ',' :: renderEls (e2 :: es2)) := by
  cases es with
  | nil => simp [renderEls]
  | cons e2 es2 => simp [renderEls]

theorem renderEls_head (e : J) (es : List J) :
    ∃ c t, renderEls (e :: es) = c :: t ∧ isJsonWs c = false ∧
      pySpace c = false ∧ c ≠ ']' ∧ c ≠ '}' ∧ c ≠ ',' := by
  obtain ⟨c, t, hct, h1, h2, h3, h4, h5⟩ := renderL_head e
  refine ⟨c, t ++ (match es with
    | [] => ([] : List Char)
    | e2 :: es2 => ',' :: renderEls (e2 :: es2)), ?_, h1, h2, h3, h4, h5⟩
  rw [renderEls_cons, hct]
  simp

theorem skipJsonWs_renderEls (e : J) (es : List J) (x : List Char) :
    skipJsonWs (renderEls (e :: es) ++ x) = renderEls (e :: es) ++ x := by
  obtain ⟨c, t, hct, h1, _⟩ := renderEls_head e es
  rw [hct, List.cons_append]
  exact skipJsonWs_cons h1

theorem renderMs_cons (k : List Char) (v : J) (ms : List (List Char × J)) :
    renderMs ((k, v) :: ms) =
      '"' :: (k ++ '"' :: ':' :: (renderL v ++ (match ms with
        | [] => ([] : List Char)
        | m2 :: ms2 => ',' :: renderMs (m2 :: ms2)))) := by
  cases ms with
  | nil => simp [renderMs]
  | cons m2 ms2 =>
    obtain ⟨k2, v2⟩ := m2
    simp [renderMs]

mutual

theorem rt_val : ∀ (fuel : Nat) (v : J) (rest : List Char),
    wfJ v = true → (renderL v).length < fuel → restOkB v rest = true →
    pVal fuel (renderL v ++ rest) = some (v, rest)
  | 0, _, _, _, hf, _ => absurd hf (Nat.not_lt_zero _)
  | fuel + 1, v, rest, hwf, hf, hro => by
    cases v with
    | null =>
      have h1 : renderL J.null ++ rest = 'n' :: 'u' :: 'l' :: 'l' :: rest := by
        simp [renderL]
      rw [h1, pVal_null]
    | bool b =>
      cases b with
      | true =>
        have h1 : renderL (J.bool true) ++ rest =
            't' :: 'r' :: 'u' :: 'e' :: rest := by
          simp [renderL]
        rw [h1, pVal_true]
      | false =>
        have h1 : renderL (J.bool false) ++ rest =
            'f' :: 'a' :: 'l' :: 's' :: 'e' :: rest := by
          simp [renderL]
        rw [h1, pVal_false]
    | num i =>
      have hns : numStopB rest = true := by simpa [restOkB] using hro
      have hrl : renderL (J.num i) = intChars i := by simp [renderL]
      rw [hrl]
      by_cases hi : i < 0
      · have h2 : intChars i ++ rest = '-' :: (natChars i.natAbs [] ++ rest) := by
          simp [intChars, hi]
        rw [h2, pVal_other fuel '-' _ (by decide) (by decide) (by decide)
            (by decide) (by decide) (by decide), ← h2, pNum_render i rest hns]
      · obtain ⟨c, t, hct, hdig, _⟩ := natChars_head i.natAbs
        obtain ⟨hq, hbo, hbk, _, _, _, _, hn, ht2, hfc, _⟩ := isDig_not_delim hdig
        have h2 : intChars i ++ rest = c :: (t ++ rest) := by
          simp [intChars, hi, hct]
        rw [h2, pVal_other fuel c _ hq hbo hbk hn ht2 hfc, ← h2,
            pNum_render i rest hns]
    | str s =>
      have hs : s.all strOkChar = true := by simpa [wfJ] using hwf
      have h1 : renderL (J.str s) ++ rest = '"' :: (s ++ '"' :: rest) := by
        simp [renderL]
      rw [h1, pVal_quote, pStr_run s [] rest hs]
      simp
    | arr es =>
      cases es with
      | nil =>
        cases fuel with
        | zero =>
          exfalso
          have h0 : renderL (J.arr []) = ['[', ']'] := by
            simp [renderL, renderEls]
          rw [h0] at hf
          simp at hf
        | succ g =>
          have h1 : renderL (J.arr []) ++ rest = '[' :: ']' :: rest := by
            simp [renderL, renderEls]
          rw [h1]
          simp [pVal, skipJsonWs_cons (show isJsonWs ']' = false by decide)]
      | cons e es2 =>
        have hwfa : wfArr (e :: es2) = true := by simpa [wfJ] using hwf
        have hlen : (renderL (J.arr (e :: es2))).length =
            (renderEls (e :: es2)).length + 2 := by
          simp [renderL]
        rw [hlen] at hf
        cases fuel with
        | zero => exact absurd hf (by omega)
        | succ g =>
          have h1 : renderL (J.arr (e :: es2)) ++ rest
              = '[' :: (renderEls (e :: es2) ++ ']' :: rest) := by
            simp [renderL]
          obtain ⟨c, t, hct, hws, _, hbr, _, _⟩ := renderEls_head e es2
          have h3 : renderEls (e :: es2) ++ ']' :: rest
              = c :: (t ++ ']' :: rest) := by
            rw [hct]
            simp
          rw [h1, h3, pVal_lbrack_go (g + 1) hbr hws, ← h3,
              rt_elems (g + 1) e es2 rest hwfa (by omega)]
    | obj ms =>
      cases ms with
      | nil =>
        cases fuel with
        | zero =>
          exfalso
          have h0 : renderL (J.obj []) = ['{', '}'] := by
            simp [renderL, renderMs]
          rw [h0] at hf
          simp at hf
        | succ g =>
          have h1 : renderL (J.obj []) ++ rest = '{' :: '}' :: rest := by
            simp [renderL, renderMs]
          rw [h1]
          simp [pVal, skipJsonWs_cons (show isJsonWs '}' = false by decide)]
      | cons m ms2 =>
        obtain ⟨k, v⟩ := m
        have hwfo : wfMems ((k, v) :: ms2) = true ∧
            nodupKeys ((k, v) :: ms2) = true := by
          have h5 := hwf
          simp only [wfJ, Bool.and_eq_true] at h5
          exact h5
        have hlen : (renderL (J.obj ((k, v) :: ms2))).length =
            (renderMs ((k, v) :: ms2)).length + 2 := by
          simp [renderL]
        rw [hlen] at hf
        cases fuel with
        | zero => exact absurd hf (by omega)
        | succ g =>
          have h1 : renderL (J.obj ((k, v) :: ms2)) ++ rest
              = '{' :: (renderMs ((k, v) :: ms2) ++ '}' :: rest) := by
            simp [renderL]
          have h3 : renderMs ((k, v) :: ms2) ++ '}' :: rest
              = '"' :: ((k ++ '"' :: ':' :: (renderL v ++ (match ms2 with
                  | [] => ([] : List Char)
                  | m2 :: ms3 => ',' :: renderMs (m2 :: ms3)))) ++ '}' :: rest) := by
            rw [renderMs_cons]
            cases ms2 <;> simp
          rw [h1, h3, pVal_lbrace_go (g + 1) (by decide) (by decide), ← h3]
          rw [rt_members (g + 1) (k, v) ms2 rest hwfo.1 (by omega)]
          simp only [pyDict_self _ hwfo.2]
  termination_by fuel => fuel

theorem rt_elems : ∀ (fuel : Nat) (e : J) (es : List J) (rest : List Char),
    wfArr (e :: es) = true → (renderEls (e :: es)).length + 1 < fuel →
    pElems fuel (renderEls (e :: es) ++ ']' :: rest) = some (e :: es, rest)
  | 0, _, _, _, _, hf => absurd hf (Nat.not_lt_zero _)
  | fuel + 1, e, es, rest, hwf, hf => by
    have hwe : wfJ e = true := by
      simp only [wfArr, Bool.and_eq_true] at hwf
      exact hwf.1
    cases es with
    | nil =>
      have h0 : renderEls [e] = renderL e := by simp [renderEls]
      rw [h0] at hf ⊢
      simp only [pElems]
      rw [rt_val fuel e (']' :: rest) hwe (by omega) (restOk_rbrack e rest)]
      simp [skipJsonWs_cons (show isJsonWs ']' = false by decide)]
    | cons e2 es2 =>
      have hwf2 : wfArr (e2 :: es2) = true := by
        simp only [wfArr, Bool.and_eq_true] at hwf
        simp only [wfArr, Bool.and_eq_true]
        exact hwf.2
      have h0 : renderEls (e :: e2 :: es2) =
          renderL e ++ ',' :: renderEls (e2 :: es2) := by
        simp [renderEls]
      have hel : 1 ≤ (renderL e).length := by
        cases hrr : renderL e with
        | nil => exact absurd hrr (renderL_ne_nil e)
        | cons a b => simp
      have hlen0 : (renderEls (e :: e2 :: es2)).length =
          (renderL e).length + 1 + (renderEls (e2 :: es2)).length := by
        rw [h0]
        simp
        omega
      rw [hlen0] at hf
      have h1 : renderEls (e :: e2 :: es2) ++ ']' :: rest
          = renderL e ++ ',' :: (renderEls (e2 :: es2) ++ ']' :: rest) := by
        rw [h0]
        simp
      rw [h1]
      simp only [pElems]
      rw [rt_val fuel e (',' :: (renderEls (e2 :: es2) ++ ']' :: rest)) hwe
          (by omega) (restOk_comma e _)]
      simp only [skipJsonWs_cons (show isJsonWs ',' = false by decide),
                 skipJsonWs_renderEls e2 es2 (']' :: rest),
                 rt_elems fuel e2 es2 rest hwf2 (by omega)]
  termination_by fuel => fuel

theorem rt_members : ∀ (fuel : Nat) (m : List Char × J)
    (ms : List (List Char × J)) (rest : List Char),
    wfMems (m :: ms) = true → (renderMs (m :: ms)).length + 1 < fuel →
    pMembers fuel (renderMs (m :: ms) ++ '}' :: rest) = some (m :: ms, rest)
  | 0, _, _, _, _, hf => absurd hf (Nat.not_lt_zero _)
  | fuel + 1, (k, v), ms, rest, hwf, hf => by
    have hkv : k.all strOkChar = true ∧ wfJ v = true := by
      simp only [wfMems, Bool.and_eq_true] at hwf
      exact hwf.1
    cases ms with
    | nil =>
      have h0 : renderMs [(k, v)] = '"' :: (k ++ '"' :: ':' :: renderL v) := by
        simp [renderMs]
      have hlen : (renderMs [(k, v)]).length =
          k.length + (renderL v).length + 3 := by
        rw [h0]
        simp
        omega
      rw [hlen] at hf
      have h1 : renderMs [(k, v)] ++ '}' :: rest
          = '"' :: (k ++ '"' :: (':' :: (renderL v ++ '}' :: rest))) := by
        rw [h0]
        simp
      rw [h1]
      simp only [pMembers]
      rw [pStr_run k [] _ hkv.1]
      simp only [List.reverse_nil, List.nil_append,
                 skipJsonWs_cons (show isJsonWs ':' = false by decide),
                 skipJsonWs_render v ('}' :: rest),
                 rt_val fuel v ('}' :: rest) hkv.2 (by omega)
                   (restOk_rbrace v rest),
                 skipJsonWs_cons (show isJsonWs '}' = false by decide)]
    | cons m2 ms2 =>
      have hwf2 : wfMems (m2 :: ms2) = true := by
        simp only [wfMems, Bool.and_eq_true] at hwf
        simp only [wfMems, Bool.and_eq_true]
        exact hwf.2
      obtain ⟨k2, v2⟩ := m2
      have h0 : renderMs ((k, v) :: (k2, v2) :: ms2) =
          '"' :: (k ++ '"' :: ':' :: (renderL v ++
            ',' :: renderMs ((k2, v2) :: ms2))) := by
        simp [renderMs]
      have hlen : (renderMs ((k, v) :: (k2, v2) :: ms2)).length =
          k.length + (renderL v).length +
            (renderMs ((k2, v2) :: ms2)).length + 4 := by
        rw [h0]
        simp
        omega
      rw [hlen] at hf
      have h1 : renderMs ((k, v) :: (k2, v2) :: ms2) ++ '}' :: rest
          = '"' :: (k ++ '"' :: (':' :: (renderL v ++
              ',' :: (renderMs ((k2, v2) :: ms2) ++ '}' :: rest)))) := by
        rw [h0]
        simp
      have hskip : skipJsonWs (renderMs ((k2, v2) :: ms2) ++ '}' :: rest)
          = renderMs ((k2, v2) :: ms2) ++ '}' :: rest := by
        rw [renderMs_cons]
        simp only [List.cons_append]
        exact skipJsonWs_cons (by decide)
      rw [h1]
      simp only [pMembers]
      rw [pStr_run k [] _ hkv.1]
      simp only [List.reverse_nil, List.nil_append,
                 skipJsonWs_cons (show isJsonWs ':' = false by decide),
                 skipJsonWs_render v
                   (',' :: (renderMs ((k2, v2) :: ms2) ++ '}' :: rest)),
                 rt_val fuel v _ hkv.2 (by omega) (restOk_comma v _),
                 skipJsonWs_cons (show isJsonWs ',' = false by decide),
                 hskip,
                 rt_members fuel (k2, v2) ms2 rest hwf2 (by omega)]
  termination_by fuel => fuel

end

theorem restOk_nil (v : J) : restOkB v [] = true := by
  cases v <;> simp [restOkB, numStopB]

theorem pyLoads_render (v : J) (h : wfJ v = true) :
    pyLoads (renderL v) = some v := by
  unfold pyLoads rawDecode
  have hskip : skipJsonWs (renderL v) = renderL v := by
    have h2 := skipJsonWs_render v []
    simpa using h2
  rw [hskip]
  have hrt := rt_val ((renderL v).length + 1) v [] h (by omega) (restOk_nil v)
  rw [List.append_nil] at hrt
  rw [hrt]
  simp [skipJsonWs]

theorem pyLoads_wf {s : List Char} {v : J} (h : pyLoads s = some v) :
    wfJ v = true := by
  unfold pyLoads rawDecode at h
  cases hp : pVal ((skipJsonWs s).length + 1) (skipJsonWs s) with
  | none => rw [hp] at h; cases h
  | some p =>
    obtain ⟨v2, r⟩ := p
    rw [hp] at h
    by_cases he : (skipJsonWs r).isEmpty
    · simp only [he, if_true] at h
      cases h
      exact wf_pVal _ _ _ _ hp
    · simp [he] at h

/-- C9: `_minify_json_str` is idempotent — a non-JSON string passes
through unchanged twice, and a parsed-and-re-dumped string parses back to
the same value, whose dump is itself.  (The claim's companion statement
that `_squeeze_text` is also idempotent is refuted separately: a line
holding only a blank between two newlines is first emptied, and the then
adjacent newlines collapse only on the second pass.) -/
theorem minify_json_str_idem (s : List Char) :
    minify_json_str (minify_json_str s) = minify_json_str s := by
  cases hL : pyLoads s with
  | none => simp [minify_json_str, hL]
  | some v =>
    simp [minify_json_str, hL, pyLoads_render v (pyLoads_wf hL)]

/-- `_squeeze_text` is not idempotent: on `"a\n \nb"` one pass gives
`"a\n\nb"` (the blank line is emptied after newline runs were already
collapsed) and a second pass gives `"a\nb"`. -/
theorem squeeze_text_not_idem :
    squeeze_text (squeeze_text ('a' :: '\n' :: ' ' :: '\n' :: 'b' :: [])) ≠
      squeeze_text ('a' :: '\n' :: ' ' :: '\n' :: 'b' :: []) := by
  have h1 : squeeze_text ('a' :: '\n' :: ' ' :: '\n' :: 'b' :: []) =
      ('a' :: '\n' :: '\n' :: 'b' :: []) := by
    simp [squeeze_text, stripL, rstripL, collapseNl, splitNl, splitNlAux,
      joinNl, squeezeLine, collapseSpTab, isSpTab, btick, pySpace]
  have h2 : squeeze_text ('a' :: '\n' :: '\n' :: 'b' :: []) =
      ('a' :: '\n' :: 'b' :: []) := by
    simp [squeeze_text, stripL, rstripL, collapseNl, splitNl, splitNlAux,
      joinNl, squeezeLine, collapseSpTab, isSpTab, btick, pySpace]
  rw [h1, h2]
  decide

theorem pVal_zero (cs : List Char) : pVal 0 cs = none := by
  simp [pVal]

theorem pVal_inert (fuel : Nat) {c : Char} {t : List Char}
    (h : inertChar c = true) : pVal fuel (c :: t) = none := by
  have h' := h
  simp only [inertChar, Bool.not_eq_true', Bool.or_eq_false_iff,
    beq_eq_false_iff_ne] at h'
  obtain ⟨⟨⟨⟨⟨⟨⟨⟨⟨hbo, hbk⟩, hq⟩, hT⟩, hF⟩, hN⟩, hNN⟩, hI⟩, hM⟩, hD⟩ := h'
  cases fuel with
  | zero => exact pVal_zero _
  | succ f =>
    rw [pVal_other f c t hq hbo hbk hN hT hF]
    rw [pNum_not_neg hM]
    have hz : c ≠ '0' := by
      intro he; rw [he] at hD; exact absurd hD (by decide)
    simp [pUNum, hz, hD]

theorem rawDecode_nil : rawDecode [] = none := by
  simp [rawDecode, pVal, pNum, pUNum]

theorem rawDecode_inert {cs : List Char}
    (h : ∀ c ∈ cs, inertChar c = true) : rawDecode cs = none := by
  cases cs with
  | nil => exact rawDecode_nil
  | cons c t => exact pVal_inert _ (h c (by simp))

/-- The iterator's result does not depend on the fuel once it exceeds the
input length. -/
theorem iterJsonF_congr : ∀ (n : Nat) (cs : List Char) (f1 f2 : Nat),
    cs.length ≤ n → cs.length < f1 → cs.length < f2 →
    iterJsonF f1 cs = iterJsonF f2 cs := by
  intro n
  induction n with
  | zero =>
    intro cs f1 f2 hn h1 h2
    have hcs : cs = [] := List.eq_nil_of_length_eq_zero (Nat.le_zero.mp hn)
    subst hcs
    match f1, h1, f2, h2 with
    | g1 + 1, _, g2 + 1, _ => simp [iterJsonF]
  | succ n ih =>
    intro cs f1 f2 hn h1 h2
    match f1, h1, f2, h2 with
    | g1 + 1, h1, g2 + 1, h2 =>
      simp only [iterJsonF]
      split
      · rfl
      · rename_i c r heq
        have hsub : (c :: r).length ≤ cs.length := by
          rw [← heq]; exact (List.dropWhile_sublist _).length_le
        simp only [List.length_cons] at hsub
        split
        · rename_i v rem heq2
          have hrem : rem.length < (c :: r).length :=
            len_pVal _ _ _ _ heq2
          simp only [List.length_cons] at hrem
          congr 1
          exact ih rem g1 g2 (by omega) (by omega) (by omega)
        · split
          · rfl
          · rename_i x hne
            have hnd : (r.dropWhile
                (fun d => !(d == '{' || d == '['))).length ≤ r.length :=
              (List.dropWhile_sublist _).length_le
            exact ih (r.dropWhile (fun d => !(d == '{' || d == '['))) g1 g2
              (by omega) (by omega) (by omega)

/-- On purely inert prose the iterator finds nothing. -/
theorem iter_inert : ∀ (fuel : Nat) (p : List Char),
    (∀ c ∈ p, inertChar c = true) → iterJsonF fuel p = [] := by
  intro fuel p hp
  cases fuel with
  | zero => rfl
  | succ f =>
    simp only [iterJsonF]
    split
    · rfl
    · rename_i c r heq
      have hcr : ∀ x ∈ c :: r, inertChar x = true := by
        intro x hx
        apply hp
        have hmem : x ∈ p.dropWhile (fun c => pySpace c) := heq ▸ hx
        exact (List.dropWhile_sublist _).subset hmem
      have hraw : rawDecode (c :: r) = none := pVal_inert _ (hcr c (by simp))
      split
      · rename_i v rem heq2
        rw [hraw] at heq2; cases heq2
      · have hnx : r.dropWhile (fun d => !(d == '{' || d == '[')) = [] := by
          rw [List.dropWhile_eq_nil_iff]
          intro x hx
          have hix := hcr x (List.mem_cons_of_mem _ hx)
          simp only [inertChar, Bool.not_eq_true', Bool.or_eq_false_iff,
            beq_eq_false_iff_ne] at hix
          obtain ⟨⟨⟨⟨⟨⟨⟨⟨⟨h1, h2⟩, -⟩, -⟩, -⟩, -⟩, -⟩, -⟩, -⟩, -⟩ := hix
          simp [h1, h2]
        rw [hnx]

theorem dropPySpace_render (v : J) (x : List Char) :
    (renderL v ++ x).dropWhile (fun c => pySpace c) = renderL v ++ x := by
  obtain ⟨c, t, hct, _, hps, _⟩ := renderL_head v
  rw [hct, List.cons_append, List.dropWhile_cons]
  simp [hps]

/-- Head unfolding of the iterator at a non-space head character. -/
theorem iterJsonF_cons (f : Nat) (c : Char) (r : List Char)
    (h : pySpace c = false) :
    iterJsonF (f + 1) (c :: r) =
      match rawDecode (c :: r) with
      | some (v, rem) => v :: iterJsonF f rem
      | none =>
        match r.dropWhile (fun d => !(d == '{' || d == '[')) with
        | [] => []
        | nxt => iterJsonF f nxt := by
  have hd : (c :: r).dropWhile (fun x => pySpace x) = c :: r := by
    rw [List.dropWhile_cons, if_neg]
    rw [h]; exact Bool.false_ne_true
  conv_lhs => simp only [iterJsonF]; rw [hd]

theorem restOk_structured {v : J} (h : structuredJ v = true)
    (rest : List Char) : restOkB v rest = true := by
  cases v <;> simp_all [structuredJ, restOkB]

theorem structured_head {v : J} (h : structuredJ v = true) :
    ∃ t, renderL v = '{' :: t ∨ renderL v = '[' :: t := by
  cases v with
  | null => simp [structuredJ] at h
  | bool b => simp [structuredJ] at h
  | num n => simp [structuredJ] at h
  | str s => simp [structuredJ] at h
  | arr es => refine ⟨renderEls es ++ [']'], Or.inr ?_⟩; simp [renderL]
  | obj ms => refine ⟨renderMs ms ++ ['}'], Or.inl ?_⟩; simp [renderL]

/-- One iterator step at a rendered structured value: the value is decoded
and the iteration continues on the remainder. -/
theorem iter_step_nil (v : J) (rest : List Char) :
    ∀ fuel, structuredJ v = true → wfJ v = true →
    (renderL v ++ rest).length < fuel →
    iterJsonF fuel (renderL v ++ rest) =
      v :: iterJsonF (rest.length + 1) rest := by
  intro fuel hst hwf hlen
  match fuel, hlen with
  | f + 1, hlen =>
    simp only [iterJsonF]
    rw [dropPySpace_render]
    split
    · rename_i heq
      exact absurd (List.append_eq_nil.mp heq).1 (renderL_ne_nil v)
    · rename_i c r heq
      have hraw : rawDecode (c :: r) = some (v, rest) := by
        rw [← heq]
        exact rt_val _ v rest hwf (by rw [List.length_append]; omega)
          (restOk_structured hst rest)
      split
      · rename_i v2 rem2 heq2
        rw [hraw] at heq2
        obtain ⟨rfl, rfl⟩ := Prod.mk.injEq .. ▸ Option.some.injEq .. ▸ heq2
        congr 1
        have hpos : 0 < (renderL v).length :=
          List.length_pos.mpr (renderL_ne_nil v)
        rw [List.length_append] at hlen
        exact iterJsonF_congr rest.length rest f (rest.length + 1) le_rfl
          (by omega) (by omega)
      · rename_i heq2
        rw [hraw] at heq2; cases heq2

/-- An iterator step at inert prose followed by a rendered structured
value: the prose is invisible and the value is recovered. -/
theorem iter_step : ∀ (p : List Char) (fuel : Nat) (v : J) (rest : List Char),
    (∀ c ∈ p, inertChar c = true) → structuredJ v = true → wfJ v = true →
    (p ++ (renderL v ++ rest)).length < fuel →
    iterJsonF fuel (p ++ (renderL v ++ rest)) =
      v :: iterJsonF (rest.length + 1) rest := by
  intro p
  induction p with
  | nil =>
    intro fuel v rest _ hst hwf hlen
    rw [List.nil_append] at hlen ⊢
    exact iter_step_nil v rest fuel hst hwf hlen
  | cons c p' ih =>
    intro fuel v rest hin hst hwf hlen
    match fuel, hlen with
    | f + 1, hlen =>
      have hc : inertChar c = true := hin c (by simp)
      rw [List.cons_append]
      rw [List.cons_append, List.length_cons, List.length_append,
        List.length_append] at hlen
      by_cases hws : pySpace c = true
      · have hskip : iterJsonF (f + 1) (c :: (p' ++ (renderL v ++ rest))) =
            iterJsonF (f + 1) (p' ++ (renderL v ++ rest)) := by
          simp only [iterJsonF, List.dropWhile_cons, hws, if_true]
        rw [hskip]
        exact ih (f + 1) v rest (fun x hx => hin x (List.mem_cons_of_mem _ hx))
          hst hwf (by simp only [List.length_append]; omega)
      · have hps : pySpace c = false := by
          cases hpc : pySpace c with
          | false => rfl
          | true => exact absurd hpc hws
        rw [iterJsonF_cons f c _ hps]
        have hraw : rawDecode (c :: (p' ++ (renderL v ++ rest))) = none :=
          pVal_inert _ hc
        have hjump : (p' ++ (renderL v ++ rest)).dropWhile
            (fun d => !(d == '{' || d == '[')) = renderL v ++ rest := by
          rw [List.dropWhile_append]
          have h1 : p'.dropWhile (fun d => !(d == '{' || d == '[')) = [] := by
            rw [List.dropWhile_eq_nil_iff]
            intro x hx
            have hix := hin x (List.mem_cons_of_mem _ hx)
            simp only [inertChar, Bool.not_eq_true', Bool.or_eq_false_iff,
              beq_eq_false_iff_ne] at hix
            obtain ⟨⟨⟨⟨⟨⟨⟨⟨⟨h1, h2⟩, -⟩, -⟩, -⟩, -⟩, -⟩, -⟩, -⟩, -⟩ := hix
            simp [h1, h2]
          simp only [h1, List.isEmpty_nil, if_true]
          obtain ⟨t, ht⟩ := structured_head hst
          cases ht with
          | inl hb => rw [hb, List.cons_append, List.dropWhile_cons]; simp
          | inr hb => rw [hb, List.cons_append, List.dropWhile_cons]; simp
        rw [hraw, hjump]
        obtain ⟨c0, t0, hc0, _, _, _⟩ := renderL_head v
        rw [hc0, List.cons_append]
        show iterJsonF f (c0 :: (t0 ++ rest)) =
          v :: iterJsonF (rest.length + 1) rest
        rw [← List.cons_append, ← hc0]
        exact iter_step_nil v rest f hst hwf
          (by rw [List.length_append]; omega)

/-- The iterator on a prose-and-rendered-values interleaving returns
exactly the embedded values, in order. -/
theorem iter_proseJoin : ∀ (pairs : List (J × List Char)) (p0 : List Char),
    (∀ c ∈ p0, inertChar c = true) →
    (∀ q ∈ pairs, structuredJ q.1 = true ∧ wfJ q.1 = true ∧
      ∀ c ∈ q.2, inertChar c = true) →
    iter_json_objects (proseJoin p0 pairs) = pairs.map Prod.fst := by
  intro pairs
  induction pairs with
  | nil =>
    intro p0 h0 _
    simp only [proseJoin, iter_json_objects, List.map_nil]
    exact iter_inert _ p0 h0
  | cons q rest ih =>
    intro p0 h0 hq
    obtain ⟨v, p⟩ := q
    have hv := hq (v, p) (by simp)
    simp only [proseJoin, iter_json_objects, List.map_cons]
    rw [iter_step p0 _ v (proseJoin p rest) h0 hv.1 hv.2.1
      (Nat.lt_succ_self _)]
    congr 1
    exact ih p hv.2.2 (fun q2 hq2 => hq q2 (List.mem_cons_of_mem _ hq2))

theorem dropWhile_eq_drop (p : Char → Bool) (l : List Char) :
    l.dropWhile p = l.drop (l.takeWhile p).length := by
  induction l with
  | nil => rfl
  | cons c cs ih =>
    by_cases h : p c <;>
      simp [List.dropWhile_cons, List.takeWhile_cons, h, ih]

/-- When no suffix of the input decodes, the iterator finds nothing. -/
theorem iter_nodecode : ∀ (fuel : Nat) (s : List Char),
    (∀ i : Nat, rawDecode (s.drop i) = none) → iterJsonF fuel s = [] := by
  intro fuel
  induction fuel with
  | zero => intro s _; rfl
  | succ f ih =>
    intro s h
    simp only [iterJsonF]
    split
    · rfl
    · rename_i c r heq
      have hsfx : c :: r = s.drop (s.takeWhile (fun c => pySpace c)).length := by
        rw [← heq, dropWhile_eq_drop]
      have hraw : rawDecode (c :: r) = none := by rw [hsfx]; exact h _
      split
      · rename_i v rem heq2
        rw [hraw] at heq2; cases heq2
      · split
        · rfl
        · rename_i x hne
          apply ih
          intro i
          have h2 : r = s.drop ((s.takeWhile (fun c => pySpace c)).length + 1) := by
            have htl := congrArg List.tail hsfx
            simpa [List.tail_drop] using htl
          rw [dropWhile_eq_drop, h2, List.drop_drop, List.drop_drop]
          exact h _

theorem jWrapLast_obj (last : J) : ∃ ms, jWrapLast last = J.obj ms := by
  cases last with
  | arr es =>
    cases es with
    | nil => exact ⟨_, rfl⟩
    | cons x xs => cases x <;> exact ⟨_, rfl⟩
  | obj ms => exact ⟨ms, rfl⟩
  | null => exact ⟨_, rfl⟩
  | bool b => exact ⟨_, rfl⟩
  | num n => exact ⟨_, rfl⟩
  | str s => exact ⟨_, rfl⟩

/-- C2: for an input containing N ≥ 1 well-formed structured JSON values
separated by arbitrary inert prose, `safe_json_loads` recovers exactly the
embedded values and returns the last one when it is a mapping; a last
value that is a non-empty list headed by a mapping yields that first
element, and any other last value is wrapped as `{"_value": value}`. -/
theorem safe_json_loads_last_embedded (p0 : List Char)
    (pairs : List (J × List Char)) (last : J)
    (h0 : ∀ c ∈ p0, inertChar c = true)
    (hq : ∀ q ∈ pairs, structuredJ q.1 = true ∧ wfJ q.1 = true ∧
      ∀ c ∈ q.2, inertChar c = true)
    (hlast : (pairs.map Prod.fst).getLast? = some last) :
    iter_json_objects (proseJoin p0 pairs) = pairs.map Prod.fst ∧
    (∀ ms, last = J.obj ms →
      safe_json_loads (proseJoin p0 pairs) = J.obj ms) ∧
    (∀ x xs, last = J.arr (x :: xs) →
      ((∃ ms, x = J.obj ms) → safe_json_loads (proseJoin p0 pairs) = x) ∧
      ((∀ ms, x ≠ J.obj ms) → safe_json_loads (proseJoin p0 pairs) =
        J.obj [("_value".toList, last)])) ∧
    (last = J.arr [] → safe_json_loads (proseJoin p0 pairs) =
      J.obj [("_value".toList, last)]) := by
  have hit := iter_proseJoin pairs p0 h0 hq
  have hs : safe_json_loads (proseJoin p0 pairs) = jWrapLast last := by
    simp only [safe_json_loads, hit, hlast]
  refine ⟨hit, ?_, ?_, ?_⟩
  · intro ms hms; rw [hs, hms]; simp [jWrapLast]
  · intro x xs hx
    constructor
    · rintro ⟨ms, rfl⟩
      rw [hs, hx]; simp [jWrapLast]
    · intro hnm
      rw [hs, hx]
      cases x with
      | obj ms => exact absurd rfl (hnm ms)
      | null => simp [jWrapLast]
      | bool b => simp [jWrapLast]
      | num n => simp [jWrapLast]
      | str s => simp [jWrapLast]
      | arr es => simp [jWrapLast]
  · intro h0'; rw [hs, h0']; simp [jWrapLast]

theorem safe_json_loads_last_embedded_w :
    (∀ c ∈ "Here: ".toList, inertChar c = true) ∧
    (∀ q ∈ ([(J.arr [], " also ".toList), (J.obj [], " ok.".toList)] :
        List (J × List Char)),
      structuredJ q.1 = true ∧ wfJ q.1 = true ∧
        ∀ c ∈ q.2, inertChar c = true) ∧
    safe_json_loads (proseJoin "Here: ".toList
      [(J.arr [], " also ".toList), (J.obj [], " ok.".toList)]) =
      J.obj [] := by
  have h0 : ∀ c ∈ "Here: ".toList, inertChar c = true := by decide
  have hq : ∀ q ∈ ([(J.arr [], " also ".toList), (J.obj [], " ok.".toList)] :
      List (J × List Char)),
      structuredJ q.1 = true ∧ wfJ q.1 = true ∧
        ∀ c ∈ q.2, inertChar c = true := by
    intro q hmem
    simp only [List.mem_cons, List.mem_singleton] at hmem
    rcases hmem with rfl | rfl | h
    · exact ⟨rfl, by simp [wfJ, wfArr], by decide⟩
    · exact ⟨rfl, by simp [wfJ, wfMems, nodupKeys], by decide⟩
    · cases h
  exact ⟨h0, hq,
    (safe_json_loads_last_embedded "Here: ".toList
      [(J.arr [], " also ".toList), (J.obj [], " ok.".toList)]
      (J.obj []) h0 hq rfl).2.1 [] rfl⟩

/-- C3: `safe_json_loads` is total in this embedding — it always returns a
mapping — and when no suffix of the input decodes to a JSON value it
returns the empty mapping `{}`. -/
theorem safe_json_loads_total (s : List Char) :
    (∃ ms, safe_json_loads s = J.obj ms) ∧
    ((∀ i : Nat, rawDecode (s.drop i) = none) →
      safe_json_loads s = J.obj []) := by
  constructor
  · simp only [safe_json_loads]
    split
    · exact ⟨[], rfl⟩
    · rename_i last heq
      exact jWrapLast_obj last
  · intro h
    have hiter : iter_json_objects s = [] := iter_nodecode _ s h
    simp [safe_json_loads, hiter]

theorem safe_json_loads_total_w :
    (∀ i : Nat, rawDecode ((".] ok ?!".toList).drop i) = none) ∧
    safe_json_loads ".] ok ?!".toList = J.obj [] := by
  have h : ∀ i : Nat, rawDecode ((".] ok ?!".toList).drop i) = none := by
    intro i
    apply rawDecode_inert
    intro c hc
    exact (by decide : ∀ c ∈ ".] ok ?!".toList, inertChar c = true) c
      (List.mem_of_mem_drop hc)
  exact ⟨h, (safe_json_loads_total ".] ok ?!".toList).2 h⟩

theorem sendLoop_rounds_le (resps : Nat → ModelTurn) :
    ∀ (fuel idx : Nat) (msgs : List SendMsg),
    (sendLoop resps idx msgs fuel).2.2 ≤ fuel := by
  intro fuel
  induction fuel with
  | zero => intro idx msgs; simp [sendLoop]
  | succ f ih =>
    intro idx msgs
    simp only [sendLoop]
    by_cases h : (resps idx).finishStop = true
    · simp [h]
    · simp only [h, if_false]
      exact Nat.succ_le_succ (ih (idx + 1) _)

theorem sendLoop_nostop (resps : Nat → ModelTurn) :
    ∀ (fuel idx : Nat) (msgs : List SendMsg),
    (∀ i, idx ≤ i → i < idx + fuel → (resps i).finishStop = false) →
    (sendLoop resps idx msgs fuel).2.1 =
      (⟨"assistant", "[超出最大工具轮次]"⟩ : SendMsg) ∧
    (∃ pre, (sendLoop resps idx msgs fuel).1 =
      pre ++ [(⟨"assistant", "[超出最大工具轮次]"⟩ : SendMsg)]) ∧
    (sendLoop resps idx msgs fuel).2.2 = fuel := by
  intro fuel
  induction fuel with
  | zero =>
    intro idx msgs _
    exact ⟨rfl, ⟨msgs, rfl⟩, rfl⟩
  | succ f ih =>
    intro idx msgs h
    have h0 : (resps idx).finishStop = false := h idx le_rfl (by omega)
    simp only [sendLoop, h0, Bool.false_eq_true, if_false]
    obtain ⟨h1, ⟨pre, h2⟩, h3⟩ := ih (idx + 1)
      (msgs ++ [⟨"assistant", (resps idx).content⟩] ++ (resps idx).toolMsgs)
      (fun i hi1 hi2 => h i (by omega) (by omega))
    exact ⟨h1, ⟨pre, h2⟩, by rw [h3]⟩

theorem agentLoop_rounds_le (resps : Nat → AgentTurn) :
    ∀ (fuel idx : Nat) (last : String),
    (agentLoop resps idx fuel last).1 ≤ fuel := by
  intro fuel
  induction fuel with
  | zero => intro idx last; simp [agentLoop]
  | succ f ih =>
    intro idx last
    simp only [agentLoop]
    by_cases h1 : (resps idx).finishStop = true
    · simp [h1]
    · simp only [h1, if_false]
      by_cases h2 : (resps idx).hasPending = true
      · simp only [h2, if_true]
        exact Nat.succ_le_succ (ih (idx + 1) _)
      · simp [h2]

theorem agentLoop_succ (resps : Nat → AgentTurn) (idx f : Nat)
    (last : String) (h1 : (resps idx).finishStop = false)
    (h2 : (resps idx).hasPending = true) :
    agentLoop resps idx (f + 1) last =
      ((agentLoop resps (idx + 1) f (resps idx).content).1 + 1,
       (agentLoop resps (idx + 1) f (resps idx).content).2.1,
       (agentLoop resps (idx + 1) f (resps idx).content).2.2) := by
  simp [agentLoop, h1, h2]

theorem agentLoop_nostop (resps : Nat → AgentTurn) :
    ∀ (f idx : Nat) (last : String),
    (∀ i, idx ≤ i → i < idx + (f + 1) →
      (resps i).finishStop = false ∧ (resps i).hasPending = true) →
    agentLoop resps idx (f + 1) last =
      (f + 1, none, (resps (idx + f)).content) := by
  intro f
  induction f with
  | zero =>
    intro idx last h
    obtain ⟨h1, h2⟩ := h idx le_rfl (by omega)
    simp [agentLoop, h1, h2]
  | succ f ih =>
    intro idx last h
    obtain ⟨h1, h2⟩ := h idx le_rfl (by omega)
    rw [agentLoop_succ resps idx (f + 1) last h1 h2]
    rw [ih (idx + 1) (resps idx).content
      (fun i hi1 hi2 => h i (by omega) (by omega))]
    have hx : idx + 1 + f = idx + (f + 1) := by omega
    rw [hx]

/-- C1: the round controllers never execute more rounds than their
budgets (`MAX_TOOL_ROUNDS = 1000` in `Client.send`, 10 in
`AIAgent.process_message`), and when every round keeps requesting tools
the loops still terminate and return: `Client.send` appends and returns
the assistant message `[超出最大工具轮次]`, and `process_message` falls
back to the last round's response content. -/
theorem round_budget (resps : Nat → ModelTurn) (aresps : Nat → AgentTurn)
    (msgs0 : List SendMsg) (userInput : String) :
    (client_send resps msgs0 userInput).2.2 ≤ MAX_TOOL_ROUNDS ∧
    (process_message aresps).1 ≤ AGENT_MAX_TOOL_ROUNDS ∧
    ((∀ i, i < MAX_TOOL_ROUNDS → (resps i).finishStop = false) →
      (client_send resps msgs0 userInput).2.1 =
        (⟨"assistant", "[超出最大工具轮次]"⟩ : SendMsg) ∧
      ∃ pre, (client_send resps msgs0 userInput).1 =
        pre ++ [(⟨"assistant", "[超出最大工具轮次]"⟩ : SendMsg)]) ∧
    ((∀ i, i < AGENT_MAX_TOOL_ROUNDS →
        (aresps i).finishStop = false ∧ (aresps i).hasPending = true) →
      (process_message aresps).2 =
        (aresps (AGENT_MAX_TOOL_ROUNDS - 1)).content) := by
  refine ⟨sendLoop_rounds_le resps _ _ _, ?_, ?_, ?_⟩
  · have := agentLoop_rounds_le aresps AGENT_MAX_TOOL_ROUNDS 0 ""
    simpa [process_message] using this
  · intro h
    obtain ⟨h1, h2, _⟩ := sendLoop_nostop resps MAX_TOOL_ROUNDS 0
      (msgs0 ++ [⟨"user", (squeeze_text userInput.toList).asString⟩])
      (fun i hi1 hi2 => h i (by omega))
    exact ⟨h1, h2⟩
  · intro h
    have hA := agentLoop_nostop aresps 9 0 ""
      (fun i hi1 hi2 => h i (by simpa [AGENT_MAX_TOOL_ROUNDS] using hi2))
    norm_num at hA
    simp [process_message, AGENT_MAX_TOOL_ROUNDS, hA]

theorem round_budget_w :
    (∀ i, i < MAX_TOOL_ROUNDS →
      ((fun _ => (⟨false, "go", []⟩ : ModelTurn)) i).finishStop = false) ∧
    (∀ i, i < AGENT_MAX_TOOL_ROUNDS →
      ((fun _ => (⟨"more", false, true⟩ : AgentTurn)) i).finishStop = false ∧
      ((fun _ => (⟨"more", false, true⟩ : AgentTurn)) i).hasPending = true) ∧
    (client_send (fun _ => (⟨false, "go", []⟩ : ModelTurn)) [] "").2.1 =
      (⟨"assistant", "[超出最大工具轮次]"⟩ : SendMsg) ∧
    (process_message (fun _ => (⟨"more", false, true⟩ : AgentTurn))).2 =
      "more" := by
  have hc := round_budget (fun _ => (⟨false, "go", []⟩ : ModelTurn))
    (fun _ => (⟨"more", false, true⟩ : AgentTurn)) [] ""
  exact ⟨fun i _ => rfl, fun i _ => ⟨rfl, rfl⟩,
    (hc.2.2.1 (fun i _ => rfl)).1,
    hc.2.2.2 (fun i _ => ⟨rfl, rfl⟩)⟩

/-- C4: the synthetic `batch_exec` tool never raises.  An unknown target
returns a single failure envelope; a known target with K argument entries
returns an ok envelope holding exactly K results in input order, entry k
carrying index k and an ok/data or ok-false/error outcome determined by
argument entry k alone (a non-dict entry fails alone too), so one entry's
failure cannot stop the others.  Proved for `chat.py`'s
`_local_batch_exec` and `ai_agent.py`'s `_batch_exec`, with their
respective error texts. -/
theorem batch_exec_spec (reg : List (String × ToolFn)) (tool : String)
    (args_list : List J) :
    (dGet reg tool = none →
      local_batch_exec reg tool args_list =
        .obj [("ok".toList, .bool false),
              ("error".toList,
               .str ("unknown tool '" ++ tool ++ "'").toList)] ∧
      batch_exec_agent reg tool args_list =
        .obj [("ok".toList, .bool false),
              ("error".toList, .str ("未知工具 '" ++ tool ++ "'").toList)]) ∧
    (∀ fn, dGet reg tool = some fn →
      ∃ res1 res2,
        local_batch_exec reg tool args_list =
          .obj [("ok".toList, .bool true), ("results".toList, .arr res1)] ∧
        batch_exec_agent reg tool args_list =
          .obj [("ok".toList, .bool true), ("results".toList, .arr res2)] ∧
        res1.length = args_list.length ∧ res2.length = args_list.length ∧
        ∀ (k : Nat) (a : J), args_list[k]? = some a →
          res1[k]? = some ((match a with
            | .obj ms =>
              match fn ms with
              | .ok data =>
                J.obj [("i".toList, .num k), ("ok".toList, .bool true),
                       ("data".toList, data)]
              | .error e =>
                J.obj [("i".toList, .num k), ("ok".toList, .bool false),
                       ("error".toList, .str e.toList)]
            | _ =>
              J.obj [("i".toList, .num k), ("ok".toList, .bool false),
                     ("error".toList,
                      .str "each args in args_list must be an object".toList)] : J)) ∧
          res2[k]? = some ((match a with
            | .obj ms =>
              match fn ms with
              | .ok data =>
                J.obj [("i".toList, .num k), ("ok".toList, .bool true),
                       ("data".toList, data)]
              | .error e =>
                J.obj [("i".toList, .num k), ("ok".toList, .bool false),
                       ("error".toList, .str e.toList)]
            | _ =>
              J.obj [("i".toList, .num k), ("ok".toList, .bool false),
                     ("error".toList,
                      .str "args_list中的每个参数必须是字典对象".toList)] : J))) := by
  constructor
  · intro h
    exact ⟨by simp [local_batch_exec, h], by simp [batch_exec_agent, h]⟩
  · intro fn h
    refine ⟨args_list.enum.map (fun p =>
        match p.2 with
        | .obj ms =>
          match fn ms with
          | .ok data =>
            J.obj [("i".toList, .num p.1), ("ok".toList, .bool true),
                   ("data".toList, data)]
          | .error e =>
            J.obj [("i".toList, .num p.1), ("ok".toList, .bool false),
                   ("error".toList, .str e.toList)]
        | _ =>
          J.obj [("i".toList, .num p.1), ("ok".toList, .bool false),
                 ("error".toList,
                  .str "each args in args_list must be an object".toList)]),
      args_list.enum.map (fun p =>
        match p.2 with
        | .obj ms =>
          match fn ms with
          | .ok data =>
            J.obj [("i".toList, .num p.1), ("ok".toList, .bool true),
                   ("data".toList, data)]
          | .error e =>
            J.obj [("i".toList, .num p.1), ("ok".toList, .bool false),
                   ("error".toList, .str e.toList)]
        | _ =>
          J.obj [("i".toList, .num p.1), ("ok".toList, .bool false),
                 ("error".toList,
                  .str "args_list中的每个参数必须是字典对象".toList)]),
      by simp [local_batch_exec, h], by simp [batch_exec_agent, h],
      by simp [List.enum_length], by simp [List.enum_length], ?_⟩
    intro k a hka
    constructor
    · simp [List.getElem?_map, List.getElem?_enum, hka]
    · simp [List.getElem?_map, List.getElem?_enum, hka]

theorem batch_exec_spec_w :
    (dGet ([] : List (String × ToolFn)) "t" = none) ∧
    local_batch_exec [] "t" [J.num 1] =
      J.obj [("ok".toList, J.bool false),
             ("error".toList, J.str ("unknown tool '" ++ "t" ++ "'").toList)] ∧
    (dGet ([("e", fun ms => Except.ok (J.obj ms))] :
        List (String × ToolFn)) "e" = some (fun ms => Except.ok (J.obj ms))) ∧
    (∃ res1, local_batch_exec [("e", fun ms => Except.ok (J.obj ms))] "e"
        [J.num 5] =
      J.obj [("ok".toList, J.bool true), ("results".toList, J.arr res1)] ∧
      res1.length = 1) := by
  have hu := (batch_exec_spec ([] : List (String × ToolFn)) "t" [J.num 1]).1 rfl
  have hk := (batch_exec_spec
    ([("e", fun ms => Except.ok (J.obj ms))] : List (String × ToolFn)) "e"
    [J.num 5]).2 (fun ms => Except.ok (J.obj ms)) rfl
  obtain ⟨res1, res2, h1, h2, h3, h4, h5⟩ := hk
  exact ⟨rfl, hu.1, rfl, res1, h1, h3⟩

theorem dGet_map_upd_self {α : Type} (k : String) (v : α) :
    ∀ d : List (String × α), d.any (fun p => p.1 == k) = true →
    dGet (d.map (fun p => (p.1, if p.1 == k then v else p.2))) k = some v := by
  intro d
  induction d with
  | nil => intro h; simp at h
  | cons p d ih =>
    intro h
    by_cases hp : (p.1 == k) = true
    · unfold dGet
      rw [List.map_cons, List.find?_cons_of_pos _ (by simpa using hp)]
      simp [hp]
    · have hd : d.any (fun p => p.1 == k) = true := by
        simpa [List.any_cons, hp] using h
      unfold dGet
      rw [List.map_cons, List.find?_cons_of_neg _ (by simpa using hp)]
      exact ih hd

theorem dGet_append_self {α : Type} (k : String) (v : α) :
    ∀ d : List (String × α), d.any (fun p => p.1 == k) = false →
    dGet (d ++ [(k, v)]) k = some v := by
  intro d
  induction d with
  | nil =>
    intro _
    unfold dGet
    rw [List.nil_append, List.find?_cons_of_pos _ (by simp)]
    rfl
  | cons p d ih =>
    intro h
    obtain ⟨h1, h2⟩ : (p.1 == k) = false ∧ d.any (fun p => p.1 == k) = false := by
      simpa [List.any_cons] using h
    unfold dGet
    rw [List.cons_append, List.find?_cons_of_neg _ (by simp [h1])]
    exact ih h2

theorem dGet_map_upd_other {α : Type} (k : String) (v : α) (k2 : String)
    (h : k2 ≠ k) : ∀ d : List (String × α),
    dGet (d.map (fun p => (p.1, if p.1 == k then v else p.2))) k2 =
      dGet d k2 := by
  intro d
  induction d with
  | nil => rfl
  | cons p d ih =>
    by_cases hp : (p.1 == k2) = true
    · have hpe : p.1 = k2 := by simpa using hp
      have hpk : (p.1 == k) = false := by
        simp [hpe]
        exact h
      unfold dGet
      rw [List.map_cons, List.find?_cons_of_pos _ (by simpa using hp),
        @List.find?_cons_of_pos _ (fun q => q.1 == k2) p d hp]
      simp [hpk]
    · unfold dGet
      rw [List.map_cons, List.find?_cons_of_neg _ (by simpa using hp),
        @List.find?_cons_of_neg _ (fun q => q.1 == k2) p d hp]
      exact ih

theorem dGet_append_other {α : Type} (k : String) (v : α) (k2 : String)
    (h : k2 ≠ k) : ∀ d : List (String × α),
    dGet (d ++ [(k, v)]) k2 = dGet d k2 := by
  intro d
  induction d with
  | nil =>
    unfold dGet
    rw [List.nil_append,
      @List.find?_cons_of_neg _ (fun q => q.1 == k2) (k, v) []
        (by simp; exact fun he => h he.symm)]
  | cons p d ih =>
    by_cases hp : (p.1 == k2) = true
    · unfold dGet
      rw [List.cons_append,
        @List.find?_cons_of_pos _ (fun q => q.1 == k2) p (d ++ [(k, v)]) hp,
        @List.find?_cons_of_pos _ (fun q => q.1 == k2) p d hp]
    · unfold dGet
      rw [List.cons_append,
        @List.find?_cons_of_neg _ (fun q => q.1 == k2) p (d ++ [(k, v)]) hp,
        @List.find?_cons_of_neg _ (fun q => q.1 == k2) p d hp]
      exact ih

theorem dGet_dUpd_self {α : Type} (d : List (String × α)) (k : String)
    (v : α) : dGet (dUpd d k v) k = some v := by
  unfold dUpd
  by_cases h : d.any (fun p => p.1 == k) = true
  · simp only [h, if_true]
    exact dGet_map_upd_self k v d h
  · rw [if_neg h]
    refine dGet_append_self k v d ?_
    cases hB : d.any (fun p => p.1 == k) with
    | false => rfl
    | true => exact absurd hB h

theorem dGet_dUpd_other {α : Type} (d : List (String × α)) (k : String)
    (v : α) (k2 : String) (h : k2 ≠ k) :
    dGet (dUpd d k v) k2 = dGet d k2 := by
  unfold dUpd
  by_cases hA : d.any (fun p => p.1 == k) = true
  · simp only [hA, if_true]
    exact dGet_map_upd_other k v k2 h d
  · rw [if_neg hA]
    exact dGet_append_other k v k2 h d

theorem dOps_cons {α : Type} (d : List (String × α)) (p : String × α)
    (ops : List (String × α)) :
    dOps d (p :: ops) = dOps (dUpd d p.1 p.2) ops := rfl

theorem dOps_append {α : Type} (d : List (String × α))
    (a b : List (String × α)) : dOps d (a ++ b) = dOps (dOps d a) b := by
  simp [dOps, List.foldl_append]

/-- Registering the tools of one server in order: the lookup of `t`
afterwards is the server's entry when it lists `t`, the old entry
otherwise. -/
theorem dGet_dOps_toolNames {α : Type} (g1 : String → α) (t : String) :
    ∀ (names : List String) (X : List (String × α)),
    dGet (dOps X (names.map (fun s => (s, g1 s)))) t =
      if names.contains t then some (g1 t) else dGet X t := by
  intro names
  induction names with
  | nil => intro X; simp [dOps]
  | cons s names ih =>
    intro X
    rw [List.map_cons, dOps_cons, ih (dUpd X s (g1 s))]
    by_cases hst : names.contains t = true
    · have hmem : t ∈ names := by simpa using hst
      simp [hst, hmem, List.contains_cons]
    · have hmem : t ∉ names := by simpa using hst
      rw [if_neg hst]
      by_cases hs : s = t
      · subst hs
        have hc : (s :: names).contains s = true := by simp
        rw [if_pos hc]
        exact dGet_dUpd_self X s (g1 s)
      · have hc : ¬((s :: names).contains t = true) := by
          simp [List.contains_cons]
          exact ⟨fun he => hs he.symm, hmem⟩
        rw [if_neg hc]
        exact dGet_dUpd_other X s (g1 s) t (fun he => hs he.symm)

/-- The whole `update` loop over a server list: the winning entry for `t`
comes from the last server listing `t`. -/
theorem dGet_dOps_servers {α : Type} (t : String)
    (g : ServerCfg → String → α) : ∀ bs : List ServerCfg,
    dGet (dOps [] (bs.flatMap
      (fun b => b.toolNames.map (fun s => (s, g b s))))) t =
      match (bs.filter (fun b => b.toolNames.contains t)).getLast? with
      | some b => some (g b t)
      | none => none := by
  intro bs
  induction bs using List.reverseRecOn with
  | nil => simp [dOps, dGet]
  | append_singleton bs b ih =>
    rw [List.flatMap_append, dOps_append]
    have hsingle : ([b] : List ServerCfg).flatMap
        (fun b2 : ServerCfg => b2.toolNames.map (fun s => (s, g b2 s))) =
        b.toolNames.map (fun s => (s, g b s)) := by
      simp
    rw [hsingle, dGet_dOps_toolNames (g b) t b.toolNames, ih,
      List.filter_append]
    by_cases hc : b.toolNames.contains t = true
    · have hmem : t ∈ b.toolNames := by simpa using hc
      have hfb : List.filter
          (fun b2 : ServerCfg => b2.toolNames.contains t) [b] = [b] := by
        simp [List.filter_cons, hmem]
      rw [if_pos hc, hfb, List.getLast?_concat]
    · have hmem : t ∉ b.toolNames := by simpa using hc
      have hfb : List.filter
          (fun b2 : ServerCfg => b2.toolNames.contains t) [b] = [] := by
        simp [List.filter_cons, hmem]
      rw [if_neg hc, hfb, List.append_nil]

/-- C5: when several active providers register a tool under the same
name, both aggregated maps retain the entry of the provider configured
last: for any tool name other than `batch_exec` whose last active owner
is `b`, `mcp_funcDict` yields `b`'s invoker for that tool and
`_tool_to_service_map` yields `b`'s service name. -/
theorem mcp_registry_last_wins (servers : List ServerCfg) (t : String)
    (ht : t ≠ "batch_exec") (b : ServerCfg)
    (hb : ((activeServers servers).filter
      (fun b => b.toolNames.contains t)).getLast? = some b) :
    dGet (mcp_funcDict servers) t = some ((b.name, t) : Invoker) ∧
    dGet (tool_to_service_map servers) t = some b.name := by
  constructor
  · unfold mcp_funcDict
    rw [dGet_dUpd_other _ _ _ _ ht]
    rw [dGet_dOps_servers t (fun b s => ((b.name, s) : Invoker))
      (activeServers servers)]
    rw [hb]
  · unfold tool_to_service_map
    rw [dGet_dUpd_other _ _ _ _ ht]
    rw [dGet_dOps_servers t (fun b _ => b.name) (activeServers servers)]
    rw [hb]

theorem mcp_registry_last_wins_w :
    (("status" : String) ≠ "batch_exec") ∧
    ((activeServers [⟨"s1", false, false, ["status"]⟩,
        ⟨"s2", false, false, ["status"]⟩]).filter
      (fun b => b.toolNames.contains "status")).getLast? =
        some ⟨"s2", false, false, ["status"]⟩ ∧
    dGet (mcp_funcDict [⟨"s1", false, false, ["status"]⟩,
        ⟨"s2", false, false, ["status"]⟩]) "status" =
      some (("s2", "status") : Invoker) ∧
    dGet (tool_to_service_map [⟨"s1", false, false, ["status"]⟩,
        ⟨"s2", false, false, ["status"]⟩]) "status" = some "s2" := by
  have h := mcp_registry_last_wins
    [⟨"s1", false, false, ["status"]⟩, ⟨"s2", false, false, ["status"]⟩]
    "status" (by decide) ⟨"s2", false, false, ["status"]⟩ rfl
  exact ⟨by decide, rfl, h.1, h.2⟩

/-- C6: the `_call` closure never raises.  On a `ToolError` it inspects
the greedy regex span from the first `[` to the last `]` of the message
(not an arbitrary contained array — this is the correction): if that one
span parses as a JSON array, the array's string elements joined with
newlines are returned when at least one exists, and in every other case
the raw message text is returned.  On success the structured `data` field
wins, else the first truthy `text` content segment, else `None`. -/
theorem make_caller_spec (msg : List Char) (dataField : Option J)
    (contentTexts : List (Option (List Char))) :
    make_caller_call (.toolErr msg) = .text (callOnToolError msg) ∧
    (bracketSpan msg = none → callOnToolError msg = msg) ∧
    (∀ span, bracketSpan msg = some span →
      (∀ xs, pyLoads span = some (.arr xs) →
        ((xs.filterMap (fun x => match x with
            | .str s => some s | _ => none)).isEmpty = true →
          callOnToolError msg = msg) ∧
        ((xs.filterMap (fun x => match x with
            | .str s => some s | _ => none)).isEmpty = false →
          callOnToolError msg = joinNlParts (xs.filterMap (fun x => match x with
            | .str s => some s | _ => none)))) ∧
      (pyLoads span = none → callOnToolError msg = msg) ∧
      (∀ v, pyLoads span = some v → (∀ xs, v ≠ .arr xs) →
        callOnToolError msg = msg)) ∧
    (∀ v, dataField = some v →
      make_caller_call (.ok dataField contentTexts) = .data v) ∧
    (dataField = none →
      make_caller_call (.ok none contentTexts) =
        (match firstTruthyText contentTexts with
         | some s => .text s
         | none => .noneVal)) := by
  refine ⟨rfl, ?_, ?_, ?_, ?_⟩
  · intro h
    simp [callOnToolError, h]
  · intro span hs
    refine ⟨?_, ?_, ?_⟩
    · intro xs hxs
      constructor
      · intro hemp
        simp [callOnToolError, hs, hxs, hemp]
      · intro hne
        simp [callOnToolError, hs, hxs, hne]
    · intro h0
      simp [callOnToolError, hs, h0]
    · intro v hv hvn
      cases v with
      | arr xs => exact absurd rfl (hvn xs)
      | null => simp [callOnToolError, hs, hv]
      | bool b => simp [callOnToolError, hs, hv]
      | num n => simp [callOnToolError, hs, hv]
      | str s => simp [callOnToolError, hs, hv]
      | obj ms => simp [callOnToolError, hs, hv]
  · intro v hv
    subst hv
    rfl
  · intro hv
    subst hv
    rfl

theorem make_caller_spec_w :
    bracketSpan ('x' :: 'y' :: []) = none ∧
    callOnToolError ('x' :: 'y' :: []) = ('x' :: 'y' :: []) ∧
    make_caller_call (.ok (some (J.num 1)) []) = .data (J.num 1) := by
  have h := make_caller_spec ('x' :: 'y' :: []) (some (J.num 1)) []
  exact ⟨rfl, h.2.1 rfl, h.2.2.2.1 (J.num 1) rfl⟩

/-- The uncorrected claim fails: the message `["a"] x ]` contains the
bracketed JSON array `["a"]` whose only element is the string `a`, yet
the greedy span is the whole message, which does not parse, so the call
returns the raw message rather than the joined string elements. -/
theorem make_caller_contained_array_cx :
    containsSub ('[' :: '"' :: 'a' :: '"' :: ']' :: [])
      ('[' :: '"' :: 'a' :: '"' :: ']' :: ' ' :: 'x' :: ' ' :: ']' :: []) =
      true ∧
    make_caller_call (.toolErr
      ('[' :: '"' :: 'a' :: '"' :: ']' :: ' ' :: 'x' :: ' ' :: ']' :: [])) =
      .text ('[' :: '"' :: 'a' :: '"' :: ']' :: ' ' :: 'x' :: ' ' :: ']' :: []) ∧
    ('[' :: '"' :: 'a' :: '"' :: ']' :: ' ' :: 'x' :: ' ' :: ']' :: []) ≠
      ('a' :: []) := by
  refine ⟨by decide, ?_, by decide⟩
  have hmsg : renderL (J.arr [J.str ['a']]) ++ (' ' :: 'x' :: ' ' :: ']' :: []) =
      ('[' :: '"' :: 'a' :: '"' :: ']' :: ' ' :: 'x' :: ' ' :: ']' :: []) := by
    simp [renderL, renderEls]
  have hspan : bracketSpan
      ('[' :: '"' :: 'a' :: '"' :: ']' :: ' ' :: 'x' :: ' ' :: ']' :: []) =
      some ('[' :: '"' :: 'a' :: '"' :: ']' :: ' ' :: 'x' :: ' ' :: ']' :: []) := by
    decide
  have hload : pyLoads
      ('[' :: '"' :: 'a' :: '"' :: ']' :: ' ' :: 'x' :: ' ' :: ']' :: []) =
      none := by
    rw [← hmsg]
    unfold pyLoads
    rw [skipJsonWs_render]
    have hrd : rawDecode (renderL (J.arr [J.str ['a']]) ++
        (' ' :: 'x' :: ' ' :: ']' :: [])) =
        some (J.arr [J.str ['a']], ' ' :: 'x' :: ' ' :: ']' :: []) := by
      exact rt_val ((renderL (J.arr [J.str ['a']]) ++
          (' ' :: 'x' :: ' ' :: ']' :: [])).length + 1)
        (J.arr [J.str ['a']]) (' ' :: 'x' :: ' ' :: ']' :: [])
        (by simp [wfJ, wfArr]; decide)
        (by rw [List.length_append]; omega) (by rfl)
    rw [hrd]
    simp [skipJsonWs, isJsonWs]
  have hcall : callOnToolError
      ('[' :: '"' :: 'a' :: '"' :: ']' :: ' ' :: 'x' :: ' ' :: ']' :: []) =
      ('[' :: '"' :: 'a' :: '"' :: ']' :: ' ' :: 'x' :: ' ' :: ']' :: []) := by
    simp [callOnToolError, hspan, hload]
  simp [make_caller_call, hcall]

theorem contains_false_of_not_mem {c : Char} (l : List Char)
    (h : ∀ x ∈ l, x ≠ c) : l.contains c = false := by
  have hm : c ∉ l := fun hmem => h c hmem rfl
  simpa [List.contains] using hm

theorem contains_true_of_mem {c : Char} (l : List Char) (h : c ∈ l) :
    l.contains c = true := by
  simpa [List.contains] using h

theorem startsWithL_cons_ne {a c : Char} (t s : List Char) (h : c ≠ a) :
    startsWithL (a :: t) (c :: s) = false := by
  simp [startsWithL, List.take_succ_cons, h]

theorem startsWithL_self (p s : List Char) : startsWithL p (p ++ s) = true := by
  simp [startsWithL, List.take_left]

theorem replaceAll_cons_eq (c : Char) (rest pat rep : List Char) :
    replaceAll (c :: rest) pat rep =
      if h : pat ≠ [] ∧ startsWithL pat (c :: rest) then
        rep ++ replaceAll ((c :: rest).drop pat.length) pat rep
      else c :: replaceAll rest pat rep := by
  rw [replaceAll.eq_def]

theorem replaceAll_nil (pat rep : List Char) : replaceAll [] pat rep = [] := by
  rw [replaceAll.eq_def]

theorem replaceAll_skip (pat rep t : List Char) (hp : pat = '$' :: t) :
    ∀ p s, (∀ c ∈ p, c ≠ '$') →
    replaceAll (p ++ s) pat rep = p ++ replaceAll s pat rep := by
  intro p
  induction p with
  | nil => intro s _; simp
  | cons c p ih =>
    intro s h
    have hneg : ¬(pat ≠ [] ∧ startsWithL pat (c :: (p ++ s)) = true) := by
      intro hco
      have h2 := hco.2
      rw [hp, startsWithL_cons_ne t (p ++ s) (h c (by simp))] at h2
      cases h2
    rw [List.cons_append, replaceAll_cons_eq, dif_neg hneg,
      ih s (fun x hx => h x (List.mem_cons_of_mem _ hx))]
    simp

theorem replaceAll_id_of_no_dollar (pat rep t : List Char)
    (hp : pat = '$' :: t) (q : List Char) (hq : ∀ c ∈ q, c ≠ '$') :
    replaceAll q pat rep = q := by
  have h := replaceAll_skip pat rep t hp q [] hq
  simpa [replaceAll_nil] using h

theorem replaceAll_head (pat rep : List Char) (hne : pat ≠ [])
    (q : List Char) : replaceAll (pat ++ q) pat rep =
      rep ++ replaceAll q pat rep := by
  cases pat with
  | nil => exact absurd rfl hne
  | cons a t2 =>
    rw [List.cons_append, replaceAll_cons_eq,
      dif_pos ⟨hne, by rw [← List.cons_append]; exact startsWithL_self (a :: t2) q⟩]
    rw [← List.cons_append, List.drop_left]

theorem replaceAll_once (pat rep t : List Char) (hp : pat = '$' :: t)
    (p q : List Char) (hpn : ∀ c ∈ p, c ≠ '$') (hq : ∀ c ∈ q, c ≠ '$') :
    replaceAll (p ++ (pat ++ q)) pat rep = p ++ (rep ++ q) := by
  rw [replaceAll_skip pat rep t hp p _ hpn,
    replaceAll_head pat rep (by rw [hp]; simp) q,
    replaceAll_id_of_no_dollar pat rep t hp q hq]

theorem findBraced_nil : findBraced [] = [] := by
  rw [findBraced.eq_def]

theorem findBraced_cons_other {c : Char} (rest : List Char) (hc : c ≠ '$') :
    findBraced (c :: rest) = findBraced rest := by
  rw [findBraced.eq_def]
  split
  · rename_i heq
    exact absurd heq (by simp)
  · rename_i rest2 heq
    rw [List.cons.injEq] at heq
    exact absurd heq.1 hc
  · rename_i c2 rest2 heq
    rw [List.cons.injEq] at heq
    rw [heq.2]

theorem findBraced_no_dollar : ∀ q, (∀ c ∈ q, c ≠ '$') → findBraced q = [] := by
  intro q
  induction q with
  | nil => intro _; exact findBraced_nil
  | cons c rest ih =>
    intro h
    rw [findBraced_cons_other rest (h c (by simp))]
    exact ih (fun x hx => h x (List.mem_cons_of_mem _ hx))

theorem findBraced_skip : ∀ p, (∀ c ∈ p, c ≠ '$') → ∀ x,
    findBraced (p ++ x) = findBraced x := by
  intro p
  induction p with
  | nil => intro _ x; simp
  | cons c p ih =>
    intro h x
    rw [List.cons_append, findBraced_cons_other _ (h c (by simp))]
    exact ih (fun y hy => h y (List.mem_cons_of_mem _ hy)) x

theorem findBraced_step (rest : List Char) :
    findBraced ('$' :: '\x7b' :: rest) =
      (if ((rest.takeWhile (fun c => c ≠ '\x7d')).isEmpty) then findBraced rest
       else if startsWithL ['\x7d']
           (rest.drop (rest.takeWhile (fun c => c ≠ '\x7d')).length) then
         (rest.takeWhile (fun c => c ≠ '\x7d')) ::
           findBraced (rest.drop
             ((rest.takeWhile (fun c => c ≠ '\x7d')).length + 1))
       else findBraced rest) := by
  rw [findBraced.eq_def]
  rfl

theorem takeWhile_until_brace (q : List Char) : ∀ name : List Char,
    (∀ c ∈ name, c ≠ '\x7d') →
    (name ++ '\x7d' :: q).takeWhile (fun c => c ≠ '\x7d') = name := by
  intro name
  induction name with
  | nil => intro _; simp [List.takeWhile_cons]
  | cons c name ih =>
    intro h
    rw [List.cons_append, List.takeWhile_cons]
    have hc : c ≠ '\x7d' := h c (by simp)
    rw [if_pos (by simp [hc])]
    rw [ih (fun x hx => h x (List.mem_cons_of_mem _ hx))]

theorem findBraced_at_pat (name q : List Char) (hnn : name ≠ [])
    (hname : ∀ c ∈ name, c ≠ '\x7d') (hq : ∀ c ∈ q, c ≠ '$') :
    findBraced (bracedPat name ++ q) = [name] := by
  have heq : bracedPat name ++ q = '$' :: '\x7b' :: (name ++ '\x7d' :: q) := by
    simp [bracedPat]
  rw [heq, findBraced_step, takeWhile_until_brace q name hname]
  rw [if_neg (by simp [hnn])]
  rw [List.drop_left]
  rw [if_pos (by simp [startsWithL])]
  have h2 : (name ++ '\x7d' :: q).drop (name.length + 1) = q := by
    have ha : name ++ '\x7d' :: q = (name ++ ['\x7d']) ++ q := by simp
    rw [ha, show name.length + 1 = (name ++ ['\x7d']).length from by simp,
      List.drop_left]
  rw [h2, findBraced_no_dollar q hq]

theorem containsSub_append_right (pat : List Char) : ∀ p x,
    containsSub pat x = true → containsSub pat (p ++ x) = true := by
  intro p
  induction p with
  | nil => intro x h; simpa using h
  | cons c p ih =>
    intro x h
    rw [List.cons_append]
    simp only [containsSub]
    rw [ih x h]
    simp

theorem containsSub_at_head (pat q : List Char) (h : pat ≠ []) :
    containsSub pat (pat ++ q) = true := by
  cases pat with
  | nil => exact absurd rfl h
  | cons a t =>
    rw [List.cons_append]
    simp only [containsSub]
    rw [← List.cons_append, startsWithL_self]
    simp

theorem startsWith_braced (name : List Char) :
    startsWithL ['$', '\x7b'] (bracedPat name) = true := by
  have h : bracedPat name = ['$', '\x7b'] ++ (name ++ ['\x7d']) := by
    simp [bracedPat]
  rw [h]
  exact startsWithL_self _ _

theorem endsWith_braced (name : List Char) :
    endsWithL ['\x7d'] (bracedPat name) = true := by
  have h : (bracedPat name).reverse =
      ['\x7d'] ++ (name.reverse ++ ['\x7b', '$']) := by
    simp [bracedPat]
  unfold endsWithL
  rw [show (['\x7d'] : List Char).reverse = ['\x7d'] from rfl, h]
  exact startsWithL_self _ _

theorem dropBraced (name : List Char) :
    ((bracedPat name).drop 2).dropLast = name := by
  simp [bracedPat]

theorem resolve_env_vars_loader_braced (env : Env) (name : List Char) :
    resolve_env_vars_loader env (bracedPat name) = (env name).getD [] := by
  unfold resolve_env_vars_loader
  rw [if_pos (by rw [startsWith_braced, endsWith_braced]; rfl)]
  rw [dropBraced]
  cases henv : env name <;> simp [henv]

theorem resolve_env_vars_loader_other (env : Env) (s : List Char)
    (h : startsWithL ['$', '\x7b'] s = false) :
    resolve_env_vars_loader env s = s := by
  unfold resolve_env_vars_loader
  rw [if_neg (by rw [h]; simp)]

theorem resolve_env_vars_agent_braced (env : Env) (name : List Char) :
    resolve_env_vars_agent env (bracedPat name) =
      (if ((env name).getD []).isEmpty then bracedPat name
       else (env name).getD []) := by
  unfold resolve_env_vars_agent
  rw [if_neg (by simp [bracedPat])]
  rw [if_pos (by rw [startsWith_braced, endsWith_braced]; rfl)]
  rw [dropBraced]

theorem resolve_env_vars_agent_dollar (env : Env) (name : List Char)
    (hnn : name ≠ []) (hh : ∀ c t, name = c :: t → c ≠ '\x7b') :
    resolve_env_vars_agent env ('$' :: name) =
      (if ((env name).getD []).isEmpty then '$' :: name
       else (env name).getD []) := by
  obtain ⟨c, t, rfl⟩ : ∃ c t, name = c :: t := by
    cases name with
    | nil => exact absurd rfl hnn
    | cons c t => exact ⟨c, t, rfl⟩
  have hc : c ≠ '\x7b' := hh c t rfl
  unfold resolve_env_vars_agent
  rw [if_neg (by simp)]
  have hs2 : startsWithL ['$', '\x7b'] ('$' :: c :: t) = false := by
    simp [startsWithL, List.take_succ_cons, hc]
  rw [if_neg (by rw [hs2]; simp)]
  rw [if_pos (by simp [startsWithL, List.take_succ_cons])]
  rfl

/-- The embedded-`${VAR}` pass of `AIAgent._resolve_env_vars`: inside
prose, a set variable's placeholder becomes its value and an unset (or
empty) variable's placeholder becomes the bare variable name — the
delimiters are stripped either way. -/
theorem resolve_env_vars_agent_embedded (env : Env) (name p q : List Char)
    (hnn : name ≠ [])
    (hname : ∀ c ∈ name, c ≠ '\x7d' ∧ c ≠ '$')
    (hpne : p ≠ []) (hp : ∀ c ∈ p, c ≠ '$') (hq : ∀ c ∈ q, c ≠ '$')
    (hev : ∀ c ∈ (env name).getD [], c ≠ '$') :
    resolve_env_vars_agent env (p ++ (bracedPat name ++ q)) =
      p ++ ((if ((env name).getD []).isEmpty then name
        else (env name).getD []) ++ q) := by
  obtain ⟨c, p', rfl⟩ : ∃ c p', p = c :: p' := by
    cases p with
    | nil => exact absurd rfl hpne
    | cons c p' => exact ⟨c, p', rfl⟩
  have hc : c ≠ '$' := hp c (by simp)
  have hp' : ∀ x ∈ p', x ≠ '$' := fun x hx => hp x (List.mem_cons_of_mem _ hx)
  unfold resolve_env_vars_agent
  rw [List.cons_append]
  rw [if_neg (by simp)]
  rw [if_neg (by rw [startsWithL_cons_ne _ _ hc]; simp)]
  rw [if_neg (by rw [startsWithL_cons_ne _ _ hc]; simp)]
  have h1x : containsSub ['$', '\x7b'] (c :: (p' ++ (bracedPat name ++ q))) =
      true := by
    rw [← List.cons_append]
    apply containsSub_append_right _ (c :: p')
    have hb : bracedPat name ++ q =
        ['$', '\x7b'] ++ ((name ++ ['\x7d']) ++ q) := by
      simp [bracedPat]
    rw [hb]
    exact containsSub_at_head _ _ (by simp)
  have h2x : (c :: (p' ++ (bracedPat name ++ q))).contains '\x7d' = true := by
    apply contains_true_of_mem
    simp [bracedPat]
  rw [h1x, h2x]
  simp only [Bool.and_self, if_true]
  have h3 : findBraced (c :: (p' ++ (bracedPat name ++ q))) = [name] := by
    rw [findBraced_cons_other _ hc, findBraced_skip p' hp' _,
      findBraced_at_pat name q hnn (fun x hx => (hname x hx).1) hq]
  rw [h3]
  rw [List.foldl_cons, List.foldl_nil]
  have h4 : replaceAll (c :: (p' ++ (bracedPat name ++ q))) (bracedPat name)
      (if ((env name).getD []).isEmpty then name else (env name).getD []) =
      (c :: p') ++ ((if ((env name).getD []).isEmpty then name
        else (env name).getD []) ++ q) := by
    rw [← List.cons_append]
    exact replaceAll_once (bracedPat name) _
      ('\x7b' :: (name ++ ['\x7d'])) (by simp [bracedPat]) (c :: p') q hp hq
  rw [h4]
  have h5 : (((c :: p') ++ ((if ((env name).getD []).isEmpty then name
      else (env name).getD []) ++ q))).contains '$' = false := by
    apply contains_false_of_not_mem
    intro x hx
    rcases List.mem_append.mp hx with hx1 | hx2
    · exact hp x hx1
    · rcases List.mem_append.mp hx2 with hx3 | hx4
      · by_cases hemp : ((env name).getD []).isEmpty = true
        · rw [if_pos hemp] at hx3
          exact (hname x hx3).2
        · rw [if_neg hemp] at hx3
          exact hev x hx3
      · exact hq x hx4
  rw [h5]
  simp

/-- C7 (corrected): an unset variable's placeholder is NOT left in place.
`ConfigLoader._resolve_env_vars` handles only a whole-string `${VAR}`,
substituting the value and turning an unset variable into the empty
string; other strings pass through.  `AIAgent._resolve_env_vars` keeps a
whole-string `${VAR}` or `$VAR` only when the variable is unset or empty
(else the value replaces it), and for a placeholder embedded in prose it
substitutes the value when set and the bare variable name — delimiters
stripped — when unset. -/
theorem resolve_env_vars_spec (env : Env) (name p q : List Char)
    (hnn : name ≠ [])
    (hname : ∀ c ∈ name, c ≠ '\x7d' ∧ c ≠ '$' ∧ c ≠ '\x7b')
    (hpne : p ≠ []) (hp : ∀ c ∈ p, c ≠ '$') (hq : ∀ c ∈ q, c ≠ '$')
    (hev : ∀ c ∈ (env name).getD [], c ≠ '$') :
    resolve_env_vars_loader env (bracedPat name) = (env name).getD [] ∧
    (∀ s, startsWithL ['$', '\x7b'] s = false →
      resolve_env_vars_loader env s = s) ∧
    resolve_env_vars_agent env (bracedPat name) =
      (if ((env name).getD []).isEmpty then bracedPat name
       else (env name).getD []) ∧
    resolve_env_vars_agent env ('$' :: name) =
      (if ((env name).getD []).isEmpty then '$' :: name
       else (env name).getD []) ∧
    resolve_env_vars_agent env (p ++ (bracedPat name ++ q)) =
      p ++ ((if ((env name).getD []).isEmpty then name
        else (env name).getD []) ++ q) := by
  refine ⟨resolve_env_vars_loader_braced env name,
    fun s hs => resolve_env_vars_loader_other env s hs,
    resolve_env_vars_agent_braced env name,
    resolve_env_vars_agent_dollar env name hnn
      (fun c t hct => by rw [hct] at hname; exact (hname c (by simp)).2.2),
    resolve_env_vars_agent_embedded env name p q hnn
      (fun c hc => ⟨(hname c hc).1, (hname c hc).2.1⟩) hpne hp hq hev⟩

theorem resolve_env_vars_spec_w :
    (('F' :: 'O' :: 'O' :: []) ≠ ([] : List Char)) ∧
    (∀ c ∈ ('F' :: 'O' :: 'O' :: []),
      c ≠ '\x7d' ∧ c ≠ '$' ∧ c ≠ '\x7b') ∧
    resolve_env_vars_loader (fun _ => some ('v' :: []))
      (bracedPat ('F' :: 'O' :: 'O' :: [])) = ('v' :: []) ∧
    resolve_env_vars_agent (fun _ => some ('v' :: []))
      (('x' :: '_' :: []) ++ (bracedPat ('F' :: 'O' :: 'O' :: []) ++ [])) =
      ('x' :: '_' :: []) ++ (('v' :: []) ++ []) := by
  have h := resolve_env_vars_spec (fun _ => some ('v' :: []))
    ('F' :: 'O' :: 'O' :: []) ('x' :: '_' :: []) [] (by decide) (by decide)
    (by decide) (by decide) (by decide) (by decide)
  refine ⟨by decide, by decide, h.1, ?_⟩
  rw [h.2.2.2.2]
  decide

/-- The uncorrected claim fails in both resolvers when the variable is
unset: the loader maps a whole-string `${FOO}` to the empty string, and
the agent maps the embedded placeholder in `x_${FOO}` to the bare name,
producing `x_FOO`; neither leaves the placeholder text in place. -/
theorem resolve_env_vars_unset_cx :
    resolve_env_vars_loader (fun _ => none)
      (bracedPat ('F' :: 'O' :: 'O' :: [])) = [] ∧
    ([] : List Char) ≠ bracedPat ('F' :: 'O' :: 'O' :: []) ∧
    resolve_env_vars_agent (fun _ => none)
      (('x' :: '_' :: []) ++ (bracedPat ('F' :: 'O' :: 'O' :: []) ++ [])) =
      ('x' :: '_' :: []) ++ (('F' :: 'O' :: 'O' :: []) ++ []) ∧
    ('x' :: '_' :: []) ++ (('F' :: 'O' :: 'O' :: []) ++ []) ≠
      ('x' :: '_' :: []) ++ (bracedPat ('F' :: 'O' :: 'O' :: []) ++ []) := by
  refine ⟨rfl, by decide, ?_, by decide⟩
  rw [resolve_env_vars_agent_embedded (fun _ => none) ('F' :: 'O' :: 'O' :: [])
    ('x' :: '_' :: []) [] (by decide) (by decide) (by decide) (by decide)
    (by decide) (by decide)]
  decide

/-- C8 (corrected): the per-message cap of 3 holds on exactly one path.
`_handle_tool_calls_in_response` executes only the first
`max_tool_calls_per_message = 3` parsed requests, in order, and the
excess requests leave no trace; but `_handle_standard_tool_calls` and the
`Client.send` round loop execute every request — the cap does not hold on
every tool-request processing path. -/
theorem tool_call_cap {Req Res : Type} (execCall : Req → Res)
    (calls : List Req) :
    (handle_tool_calls_in_response execCall calls).length =
      min max_tool_calls_per_message calls.length ∧
    (∀ k : Nat, k < max_tool_calls_per_message →
      (handle_tool_calls_in_response execCall calls)[k]? =
        (calls[k]?).map execCall) ∧
    (∀ k : Nat, max_tool_calls_per_message ≤ k →
      (handle_tool_calls_in_response execCall calls)[k]? = none) ∧
    handle_standard_tool_calls execCall calls = calls.map execCall ∧
    (handle_standard_tool_calls execCall calls).length = calls.length ∧
    client_send_round_calls execCall calls = calls.map execCall ∧
    (client_send_round_calls execCall calls).length = calls.length := by
  refine ⟨?_, ?_, ?_, rfl, by simp [handle_standard_tool_calls], rfl,
    by simp [client_send_round_calls]⟩
  · simp [handle_tool_calls_in_response, List.length_take]
  · intro k hk
    rw [handle_tool_calls_in_response, List.getElem?_map,
      List.getElem?_take_of_lt hk]
  · intro k hk
    apply List.getElem?_eq_none
    calc (handle_tool_calls_in_response execCall calls).length
        ≤ max_tool_calls_per_message := by
          simp [handle_tool_calls_in_response, List.length_take]
      _ ≤ k := hk

theorem tool_call_cap_w :
    (1 < max_tool_calls_per_message) ∧
    (max_tool_calls_per_message ≤ 4) ∧
    (handle_tool_calls_in_response (fun n : Nat => n) [5, 6, 7, 8, 9])[1]? =
      (([5, 6, 7, 8, 9] : List Nat)[1]?).map (fun n : Nat => n) ∧
    (handle_tool_calls_in_response (fun n : Nat => n) [5, 6, 7, 8, 9])[4]? =
      none := by
  have h := tool_call_cap (fun n : Nat => n) ([5, 6, 7, 8, 9] : List Nat)
  exact ⟨by decide, by decide, h.2.1 1 (by decide), h.2.2.1 4 (by decide)⟩

/-- The uncorrected claim fails: a standard-path response carrying four
tool requests executes all four — the standard handler and the
`Client.send` round loop apply no cap. -/
theorem tool_call_cap_standard_cx :
    (handle_standard_tool_calls (fun n : Nat => n) [0, 1, 2, 3]).length = 4 ∧
    ¬((handle_standard_tool_calls (fun n : Nat => n) [0, 1, 2, 3]).length ≤
      max_tool_calls_per_message) ∧
    (client_send_round_calls (fun n : Nat => n) [0, 1, 2, 3]).length = 4 := by
  exact ⟨rfl, by decide, rfl⟩

/-- C10: an unknown tool name makes `AIAgent.call_tool` raise
`ValueError("工具 '{name}' 不存在")` — it returns no error envelope and
invokes no tool function — and only the wrapping caller
`_execute_tool_call` converts the raised error into a `success = False`
envelope with the hint-augmented message. -/
theorem call_tool_unknown_raises (available_tools : List (String × ToolFn))
    (hook : List (List Char × J) → List (List Char × J))
    (tool_name : String) (kwargs : List (List Char × J))
    (h : dGet available_tools tool_name = none) :
    call_tool available_tools hook tool_name kwargs =
      .error ("工具 '" ++ tool_name ++ "' 不存在") ∧
    execute_tool_call available_tools hook tool_name kwargs =
      ⟨false, none,
       some ("工具执行异常: " ++ ("工具 '" ++ tool_name ++ "' 不存在") ++
         friendly_hint ("工具 '" ++ tool_name ++ "' 不存在"))⟩ := by
  have h1 : call_tool available_tools hook tool_name kwargs =
      .error ("工具 '" ++ tool_name ++ "' 不存在") := by
    simp [call_tool, h]
  exact ⟨h1, by simp [execute_tool_call, h1]⟩

theorem call_tool_unknown_raises_w :
    dGet ([("a", fun _ => Except.ok J.null)] : List (String × ToolFn))
      "nope" = none ∧
    call_tool [("a", fun _ => Except.ok J.null)] id "nope" [] =
      .error ("工具 '" ++ "nope" ++ "' 不存在") := by
  have h := call_tool_unknown_raises [("a", fun _ => Except.ok J.null)] id
    "nope" [] rfl
  exact ⟨rfl, h.1⟩

end SuperSecretary
